import Mathlib

/-!
Shallow embedding of the `py_huff` assembler core
(`src/py_huff/assembler.py`, `src/py_huff/utils.py`).

Python byte strings are modelled as `List Nat` (each entry one byte),
Python `dict`s as insertion-ordered association lists, raising code as
`Except`/`Option`-valued functions, and the shrink loop's possibly
unbounded iteration with an explicit fuel parameter (the fuel outcome is
reported separately from genuine Python exceptions).
-/

set_option maxRecDepth 4000

/-- Association-list lookup: first binding wins (keys are kept unique by
the insertion functions below, mirroring Python `dict` key semantics). -/
def alist_lookup {K V : Type} [DecidableEq K] : List (K × V) → K → Option V
  | [], _ => none
  | (k', v) :: rest, k => if k = k' then some v else alist_lookup rest k

/-- Python `d[k] = v`: overwrite the value at an existing key in place,
otherwise append a new binding at the end (insertion order preserved). -/
def dict_insert {K V : Type} [DecidableEq K] : List (K × V) → K → V → List (K × V)
  | [], k, v => [(k, v)]
  | (k', v') :: rest, k, v =>
    if k = k' then (k', v) :: rest else (k', v') :: dict_insert rest k v

/-- `utils.set_unique`: insert, failing with the key when it is already
present (the Python `assert k not in d` with the duplicate-key message). -/
def set_unique {K V : Type} [DecidableEq K] (d : List (K × V)) (k : K) (v : V) :
    Except K (List (K × V)) :=
  if (alist_lookup d k).isSome then Except.error k else Except.ok (d ++ [(k, v)])

/-- Accumulator form of `utils.build_unique_dict`'s fold. -/
def build_unique_dict_aux {K V : Type} [DecidableEq K] :
    List (K × V) → List (K × V) → Except K (List (K × V))
  | d, [] => Except.ok d
  | d, (k, v) :: rest =>
    match set_unique d k v with
    | Except.error k' => Except.error k'
    | Except.ok d' => build_unique_dict_aux d' rest

/-- `utils.build_unique_dict`: build a mapping from key-value pairs,
failing with the offending key when any key repeats. -/
def build_unique_dict {K V : Type} [DecidableEq K] (kvs : List (K × V)) :
    Except K (List (K × V)) :=
  build_unique_dict_aux [] kvs

/-- Python `enumerate`, with explicit start index. -/
def enum_from {α : Type} : Nat → List α → List (Nat × α)
  | _, [] => []
  | i, a :: rest => (i, a) :: enum_from (i + 1) rest

/-- Modelled from the spec: the excluded opcode table's `Op` (an opcode
identifier plus zero or more immediate data bytes physically attached to
it); the only interface this core uses is `extra_data` and `get_bytes`. -/
structure Op where
  opcode : Nat
  extra_data : List Nat
deriving DecidableEq, Repr

/-- Modelled from the spec: instructions emit their opcode byte followed
by their immediate bytes, so an instruction's encoding has length
`1 + len(extra_data)`. -/
def Op.get_bytes (o : Op) : List Nat :=
  o.opcode :: o.extra_data

/-- Modelled from the spec: the push-style instruction variant selected
by immediate byte length; for a `b`-byte immediate it encodes to
`1 + b` bytes (EVM PUSHb, opcode `0x5f + b`). -/
def create_push (data : List Nat) : Op :=
  Op.mk (0x5f + data.length) data

/-- Modelled from the spec: mnemonic-to-opcode-byte mapping of the
excluded opcode table, for the mnemonics `minimal_deploy` uses. -/
def plain_opcode : String → Nat
  | "dup1" => 0x80
  | "push0" => 0x5f
  | "codecopy" => 0x39
  | "return" => 0xf3
  | _ => 0

/-- Modelled from the spec: a plain (no-immediate) instruction for a
mnemonic. -/
def create_plain_op (name : String) : Op :=
  Op.mk (plain_opcode name) []

/-- `ContextId = tuple[int, ...]`. -/
abbrev ContextId := List Nat

/-- `MarkId = tuple[ContextId, int]`. -/
abbrev MarkId := ContextId × Nat

def START_SUB_ID : Nat := 0

def END_SUB_ID : Nat := 1

/-- Symbolic step: `Asm = Op | Mark | MarkRef | MarkDeltaRef | bytes`. -/
inductive Asm where
  | op (o : Op)
  | mark (mid : MarkId)
  | markRef (mid : MarkId)
  | markDeltaRef (start : MarkId) (end_ : MarkId)
  | raw (bs : List Nat)
deriving DecidableEq, Repr

/-- The reference payload of a `SizedRef`: `MarkRef | MarkDeltaRef`. -/
inductive ARef where
  | markRef (mid : MarkId)
  | markDeltaRef (start : MarkId) (end_ : MarkId)
deriving DecidableEq, Repr

/-- `SizedRef`: a reference together with its assigned immediate width. -/
structure SizedRef where
  ref : ARef
  offset_size : Nat
deriving DecidableEq, Repr

/-- Resolved step: `SolidAsm = Op | Mark | SizedRef | bytes`. -/
inductive SolidAsm where
  | op (o : Op)
  | mark (mid : MarkId)
  | sizedRef (sr : SizedRef)
  | raw (bs : List Nat)
deriving DecidableEq, Repr

/-- `set_size`: replace a sized reference's width. -/
def set_size (ref : SizedRef) (size : Nat) : SizedRef :=
  SizedRef.mk ref.ref size

/-- `min_static_size`: size of a symbolic step with every reference
counted at 1 byte (its opcode byte only). -/
def min_static_size : Asm → Nat
  | Asm.op o => 1 + o.extra_data.length
  | Asm.raw bs => bs.length
  | Asm.markRef _ => 1
  | Asm.markDeltaRef _ _ => 1
  | Asm.mark _ => 0

/-- `get_size`: concrete size of a resolved step. -/
def get_size : SolidAsm → Nat
  | SolidAsm.op o => 1 + o.extra_data.length
  | SolidAsm.raw bs => bs.length
  | SolidAsm.sizedRef sr => 1 + sr.offset_size
  | SolidAsm.mark _ => 0

/-- Python `int.bit_length` of a non-negative integer, computed with a
structural fuel argument (the fuel `x` always suffices since the value
halves at each step). -/
def bit_length_aux : Nat → Nat → Nat
  | 0, _ => 0
  | fuel + 1, x => if x = 0 then 0 else bit_length_aux fuel (x / 2) + 1

/-- Python `x.bit_length()` for `x ≥ 0`. -/
def bit_length (x : Nat) : Nat :=
  bit_length_aux x x

/-- `needed_bytes`: `max((x.bit_length() + 7) // 8, 1)`; Python
`bit_length` of a negative integer is the bit length of its absolute
value. -/
def needed_bytes (x : Int) : Nat :=
  max ((bit_length x.natAbs + 7) / 8) 1

/-- Count of reference steps in a symbolic stream. -/
def ref_count (asm : List Asm) : Nat :=
  asm.countP fun step =>
    match step with
    | Asm.markRef _ => true
    | Asm.markDeltaRef _ _ => true
    | _ => false

/-- The stopping condition of `get_min_static_size_bytes`'s while loop:
the largest value representable in `d` bytes is at least the stream
length that results when every reference uses a `d`-byte immediate. -/
def min_size_stop (L R d : Nat) : Bool :=
  !(2 ^ (8 * d) - 1 < L + d * R)

/-- The while loop of `get_min_static_size_bytes`, with a structural fuel
argument; `min_size_fuel_suffices` below shows the fuel used by
`get_min_static_size_bytes` is never exhausted. -/
def min_size_loop (L R : Nat) : Nat → Nat → Nat
  | 0, d => d
  | fuel + 1, d => if min_size_stop L R d then d else min_size_loop L R fuel (d + 1)

/-- `get_min_static_size_bytes`: the minimum byte width that captures any
code offset, starting from 1 and incrementing while the stop condition
fails. -/
def get_min_static_size_bytes (asm : List Asm) : Nat :=
  let R := ref_count asm
  let L := (asm.map min_static_size).sum
  min_size_loop L R (L + R + 2) 1

/-- `asm_to_solid`: assign the uniform initial width to every reference,
leave every other step unchanged; `none` models the
`assert size_bytes <= 6` failure. -/
def asm_to_solid (asm : List Asm) : Option (List SolidAsm) :=
  let size_bytes := get_min_static_size_bytes asm
  if size_bytes ≤ 6 then
    some (asm.map fun step =>
      match step with
      | Asm.markRef m => SolidAsm.sizedRef (SizedRef.mk (ARef.markRef m) size_bytes)
      | Asm.markDeltaRef s e =>
        SolidAsm.sizedRef (SizedRef.mk (ARef.markDeltaRef s e) size_bytes)
      | Asm.op o => SolidAsm.op o
      | Asm.mark m => SolidAsm.mark m
      | Asm.raw bs => SolidAsm.raw bs)
  else none

/-- The data carried by each `assert` message of validation:
`dupKey k` is `'Duplicate key {k}'` (from `utils.default_unique_error`),
`invalidRef i m` is `'Assembly step #{i} has invalid reference to {m}'`,
and `negDelta i` is `'Assembly step #{i} references negative delta'`. -/
inductive VErr where
  | dupKey (k : MarkId)
  | invalidRef (i : Nat) (mid : MarkId)
  | negDelta (i : Nat)
deriving DecidableEq, Repr

/-- The `(step.mid, i)` pairs fed to `build_unique_dict` by
`validate_asm`: one pair per `Mark` step, carrying its sequence index. -/
def marks_with_index (asm : List Asm) : List (MarkId × Nat) :=
  (enum_from 0 asm).filterMap fun p =>
    match p.2 with
    | Asm.mark m => some (m, p.1)
    | _ => none

/-- One iteration of `validate_asm`'s checking loop, for the step at
index `i`. -/
def check_step (indices : List (MarkId × Nat)) (i : Nat) (step : Asm) :
    Except VErr Unit :=
  match step with
  | Asm.markRef m =>
    if (alist_lookup indices m).isSome then Except.ok ()
    else Except.error (VErr.invalidRef i m)
  | Asm.markDeltaRef s e =>
    match alist_lookup indices s with
    | none => Except.error (VErr.invalidRef i s)
    | some si =>
      match alist_lookup indices e with
      | none => Except.error (VErr.invalidRef i e)
      | some ei =>
        if ei > si then Except.ok () else Except.error (VErr.negDelta i)
  | _ => Except.ok ()

/-- The checking loop of `validate_asm` over the enumerated stream. -/
def check_steps (indices : List (MarkId × Nat)) :
    List (Nat × Asm) → Except VErr Unit
  | [] => Except.ok ()
  | (i, step) :: rest =>
    match check_step indices i step with
    | Except.error e => Except.error e
    | Except.ok _ => check_steps indices rest

/-- `validate_asm`: build the unique index mapping for all marks, then
check every reference step against it. -/
def validate_asm (asm : List Asm) : Except VErr Unit :=
  match build_unique_dict (marks_with_index asm) with
  | Except.error k => Except.error (VErr.dupKey k)
  | Except.ok indices => check_steps indices (enum_from 0 asm)

/-- Accumulator form of `get_solid_offsets`'s loop. -/
def get_solid_offsets_aux :
    List SolidAsm → Nat → List (MarkId × Nat) → List (MarkId × Nat)
  | [], _, d => d
  | step :: rest, offset, d =>
    let d' :=
      match step with
      | SolidAsm.mark m => dict_insert d m offset
      | _ => d
    get_solid_offsets_aux rest (offset + get_size step) d'

/-- `get_solid_offsets`: accumulate a running byte offset and record each
mark's offset at the moment it is visited. -/
def get_solid_offsets (asm : List SolidAsm) : List (MarkId × Nat) :=
  get_solid_offsets_aux asm 0 []

/-- One step of `shorten_asm_once`'s rewriting loop: `none` models the
`KeyError` of a missing offset-map key. -/
def shorten_step (offsets : List (MarkId × Nat)) (step : SolidAsm) :
    Option (Bool × SolidAsm) :=
  match step with
  | SolidAsm.sizedRef sr =>
    match sr.ref with
    | ARef.markRef m =>
      match alist_lookup offsets m with
      | none => none
      | some off =>
        let req_size := needed_bytes (Int.ofNat off)
        if req_size ≠ sr.offset_size then
          some (true, SolidAsm.sizedRef (set_size sr req_size))
        else some (false, step)
    | ARef.markDeltaRef s e =>
      match alist_lookup offsets s with
      | none => none
      | some soff =>
        match alist_lookup offsets e with
        | none => none
        | some eoff =>
          let req_size := needed_bytes (Int.ofNat eoff - Int.ofNat soff)
          if req_size ≠ sr.offset_size then
            some (true, SolidAsm.sizedRef (set_size sr req_size))
          else some (false, step)
  | _ => some (false, step)

/-- `shorten_asm_once`: recompute offsets and rewrite every reference to
its minimum width, reporting whether anything changed. -/
def shorten_asm_once (asm : List SolidAsm) : Option (Bool × List SolidAsm) :=
  let offsets := get_solid_offsets asm
  (asm.mapM (shorten_step offsets)).map fun l =>
    (l.any Prod.fst, l.map Prod.snd)

/-- Outcome of the shrink loop: `out` is the Python return value, `err`
a Python exception inside a pass, `fuelOut` exhaustion of the embedding's
artificial fuel (no Python counterpart). -/
inductive ShortenRes where
  | out (asm : List SolidAsm)
  | err
  | fuelOut
deriving DecidableEq, Repr

/-- The `while changed_any and max_iters` loop of `shorten_asm`: a budget
of 0 exits immediately, a negative budget never exits by budget (Python
decrements an arbitrary-precision integer, which never reaches 0 from
below). -/
def shorten_loop : List SolidAsm → Int → Nat → ShortenRes
  | _, _, 0 => ShortenRes.fuelOut
  | asm, max_iters, fuel + 1 =>
    if max_iters = 0 then ShortenRes.out asm
    else
      match shorten_asm_once asm with
      | none => ShortenRes.err
      | some (changed, asm') =>
        if changed then shorten_loop asm' (max_iters - 1) fuel
        else ShortenRes.out asm'

/-- Default of `shorten_asm`'s `max_iters` parameter
(`def shorten_asm(asm, max_iters: int = 100)`). -/
def shorten_asm_default_max_iters : Int := 100

/-- `shorten_asm`: iterate `shorten_asm_once` under the budget. -/
def shorten_asm (asm : List SolidAsm) (max_iters : Int) (fuel : Nat) : ShortenRes :=
  shorten_loop asm max_iters fuel

/-- Big-endian fixed-width encoding of a value already known to fit:
the byte string `v.to_bytes(n, 'big')` produces. -/
def be_bytes (v : Nat) : Nat → List Nat
  | 0 => []
  | n + 1 => be_bytes (v / 256) n ++ [v % 256]

/-- Python `value.to_bytes(size, 'big')`: fails (OverflowError) unless
`0 ≤ value < 2^(8·size)`. -/
def to_bytes_be (value : Int) (size : Nat) : Option (List Nat) :=
  if 0 ≤ value ∧ value < 2 ^ (8 * size) then some (be_bytes value.toNat size)
  else none

/-- One step of the emitter: the bytes a resolved step contributes.
`none` models a `KeyError` on the offset map or an OverflowError in
`to_bytes`. -/
def emit_step (offsets : List (MarkId × Nat)) (step : SolidAsm) :
    Option (List Nat) :=
  match step with
  | SolidAsm.op o => some o.get_bytes
  | SolidAsm.mark _ => some []
  | SolidAsm.sizedRef sr =>
    match sr.ref with
    | ARef.markRef m =>
      match alist_lookup offsets m with
      | none => none
      | some off =>
        (to_bytes_be (Int.ofNat off) sr.offset_size).map fun bs =>
          (create_push bs).get_bytes
    | ARef.markDeltaRef s e =>
      match alist_lookup offsets s with
      | none => none
      | some soff =>
        match alist_lookup offsets e with
        | none => none
        | some eoff =>
          (to_bytes_be (Int.ofNat eoff - Int.ofNat soff) sr.offset_size).map
            fun bs => (create_push bs).get_bytes
  | SolidAsm.raw bs => some bs

/-- `solid_asm_to_bytecode`: final offset computation, then concatenate
each step's bytes. -/
def solid_asm_to_bytecode (asm : List SolidAsm) : Option (List Nat) :=
  (asm.mapM (emit_step (get_solid_offsets asm))).map List.flatten

/-- Overall pipeline outcome: `ok` the returned bytecode, `err` any
Python exception, `fuelOut` exhaustion of the embedding's fuel. -/
inductive PipeRes where
  | ok (bs : List Nat)
  | err
  | fuelOut
deriving DecidableEq, Repr

/-- Default of `asm_to_bytecode`'s `max_reduce_iters` parameter
(`def asm_to_bytecode(asm, max_reduce_iters: int = -1)`). -/
def asm_to_bytecode_default_max_reduce_iters : Int := -1

/-- `asm_to_bytecode`: validate, solidify, shrink under the budget,
emit. -/
def asm_to_bytecode (asm : List Asm) (max_reduce_iters : Int) (fuel : Nat) :
    PipeRes :=
  match validate_asm asm with
  | Except.error _ => PipeRes.err
  | Except.ok _ =>
    match asm_to_solid asm with
    | none => PipeRes.err
    | some solid =>
      match shorten_asm solid max_reduce_iters fuel with
      | ShortenRes.fuelOut => PipeRes.fuelOut
      | ShortenRes.err => PipeRes.err
      | ShortenRes.out s =>
        match solid_asm_to_bytecode s with
        | none => PipeRes.err
        | some bs => PipeRes.ok bs

/-- The symbolic stream `minimal_deploy` constructs around a runtime
payload. -/
def deploy_asm (runtime : List Nat) : List Asm :=
  let start : MarkId := ([], START_SUB_ID)
  let end_ : MarkId := ([], END_SUB_ID)
  [ Asm.markDeltaRef start end_,
    Asm.op (create_plain_op "dup1"),
    Asm.markRef start,
    Asm.op (create_plain_op "push0"),
    Asm.op (create_plain_op "codecopy"),
    Asm.op (create_plain_op "push0"),
    Asm.op (create_plain_op "return"),
    Asm.mark start,
    Asm.raw runtime,
    Asm.mark end_ ]

/-- `minimal_deploy`: run the full pipeline (with `asm_to_bytecode`'s
default budget) on the deploy stream. -/
def minimal_deploy (runtime : List Nat) (fuel : Nat) : PipeRes :=
  asm_to_bytecode (deploy_asm runtime) asm_to_bytecode_default_max_reduce_iters fuel

/-- Identities of all label steps, in sequence order. -/
def mark_ids (asm : List Asm) : List MarkId :=
  asm.filterMap fun step =>
    match step with
    | Asm.mark m => some m
    | _ => none

/-- Position index in the sequence of the label with identity `m` (the
spec's mapping from label identity to position index). -/
def mark_pos (asm : List Asm) (m : MarkId) : Option Nat :=
  alist_lookup (marks_with_index asm) m

/-- Refinement side, following the spec's words: a reference step names
only present label identities, and a distance reference's end label has a
strictly greater position index than its start label. -/
def spec_step_ok (asm : List Asm) : Asm → Bool
  | Asm.markRef m => (mark_pos asm m).isSome
  | Asm.markDeltaRef s e =>
    match mark_pos asm s, mark_pos asm e with
    | some si, some ei => decide (si < ei)
    | _, _ => false
  | _ => true

/-- Refinement side, following the spec's words: all labels pairwise
distinct and every reference step in order. -/
def valid_spec (asm : List Asm) : Prop :=
  (mark_ids asm).Nodup ∧ ∀ step ∈ asm, spec_step_ok asm step = true

/-- Label identities of a resolved stream's marks, in sequence order. -/
def solid_mark_ids (s : List SolidAsm) : List MarkId :=
  s.filterMap fun step =>
    match step with
    | SolidAsm.mark m => some m
    | _ => none

/-- Label identities named by one resolved step (a distance reference
contributes both endpoints). -/
def step_sref_ids : SolidAsm → List MarkId
  | SolidAsm.sizedRef sr =>
    match sr.ref with
    | ARef.markRef m => [m]
    | ARef.markDeltaRef a b => [a, b]
  | _ => []

/-- Label identities named by the sized references of a resolved
stream. -/
def sref_ids : List SolidAsm → List MarkId
  | [] => []
  | step :: rest => step_sref_ids step ++ sref_ids rest

/-- Label identities named by one symbolic step's references. -/
def step_ref_ids : Asm → List MarkId
  | Asm.markRef m => [m]
  | Asm.markDeltaRef a b => [a, b]
  | _ => []

/-- Label identities named by the references of a symbolic stream. -/
def asm_ref_ids : List Asm → List MarkId
  | [] => []
  | step :: rest => step_ref_ids step ++ asm_ref_ids rest

/-- Iterating the shrink pass a fixed number of times (`none` when some
pass raises). -/
def iterate_shorten : Nat → List SolidAsm → Option (List SolidAsm)
  | 0, s => some s
  | n + 1, s =>
    match shorten_asm_once s with
    | none => none
    | some p => iterate_shorten n p.2

/-- Forget the width assignment of a resolved stream, recovering the
symbolic stream it sizes (any width assignment strips to the same
symbolic stream). -/
def strip_sizes (s : List SolidAsm) : List Asm :=
  s.map fun step =>
    match step with
    | SolidAsm.op o => Asm.op o
    | SolidAsm.mark m => Asm.mark m
    | SolidAsm.raw bs => Asm.raw bs
    | SolidAsm.sizedRef sr =>
      match sr.ref with
      | ARef.markRef m => Asm.markRef m
      | ARef.markDeltaRef a b => Asm.markDeltaRef a b

/-- Total byte size of the first `j` steps of a resolved stream (the
running offset just before step `j`). -/
def size_upto (s : List SolidAsm) (j : Nat) : Nat :=
  ((s.take j).map get_size).sum

/-- Big-endian decoding of a byte string (refinement side, following the
spec's words about decoding the embedded length). -/
def decode_be (bs : List Nat) : Nat :=
  bs.foldl (fun acc b => acc * 256 + b) 0

/-- The resolved deploy stream with given widths for its distance
reference and its absolute reference (the shapes the shrink passes move
between). -/
def solid_deploy (wa wb : Nat) (runtime : List Nat) : List SolidAsm :=
  [ SolidAsm.sizedRef (SizedRef.mk (ARef.markDeltaRef ([], START_SUB_ID) ([], END_SUB_ID)) wa),
    SolidAsm.op (create_plain_op "dup1"),
    SolidAsm.sizedRef (SizedRef.mk (ARef.markRef ([], START_SUB_ID)) wb),
    SolidAsm.op (create_plain_op "push0"),
    SolidAsm.op (create_plain_op "codecopy"),
    SolidAsm.op (create_plain_op "push0"),
    SolidAsm.op (create_plain_op "return"),
    SolidAsm.mark ([], START_SUB_ID),
    SolidAsm.raw runtime,
    SolidAsm.mark ([], END_SUB_ID) ]

/-! ### Arithmetic characterization of `bit_length` and `needed_bytes` -/

theorem two_pow_pos_nat (k : Nat) : 0 < 2 ^ k := pow_pos (by norm_num) k

theorem bit_length_aux_le_iff :
    ∀ (fuel x k : Nat), x ≤ fuel → (bit_length_aux fuel x ≤ k ↔ x < 2 ^ k) := by
  intro fuel
  induction fuel with
  | zero =>
    intro x k hx
    have hx0 : x = 0 := by omega
    subst hx0
    simp [bit_length_aux, two_pow_pos_nat]
  | succ fuel ih =>
    intro x k hx
    by_cases h0 : x = 0
    · subst h0
      simp [bit_length_aux, two_pow_pos_nat]
    · simp only [bit_length_aux, if_neg h0]
      cases k with
      | zero =>
        constructor
        · intro h; omega
        · intro h; omega
      | succ k =>
        have hx2 : x / 2 ≤ fuel := by omega
        rw [Nat.succ_le_succ_iff, ih (x / 2) k hx2, pow_succ]
        exact Nat.div_lt_iff_lt_mul (by norm_num)

theorem bit_length_le_iff (x k : Nat) : bit_length x ≤ k ↔ x < 2 ^ k :=
  bit_length_aux_le_iff x x k (Nat.le_refl x)

theorem needed_bytes_ofNat (x : Nat) :
    needed_bytes (Int.ofNat x) = max ((bit_length x + 7) / 8) 1 := by
  simp [needed_bytes]

theorem needed_bytes_pos (v : Int) : 1 ≤ needed_bytes v := le_max_right _ _

theorem needed_bytes_le_iff (x w : Nat) (hw : 1 ≤ w) :
    needed_bytes (Int.ofNat x) ≤ w ↔ x < 2 ^ (8 * w) := by
  rw [needed_bytes_ofNat, max_le_iff, ← bit_length_le_iff]
  omega

theorem lt_two_pow_needed_bytes (x : Nat) :
    x < 2 ^ (8 * needed_bytes (Int.ofNat x)) :=
  (needed_bytes_le_iff x _ (needed_bytes_pos _)).mp (Nat.le_refl _)

theorem two_pow_le_of_lt_needed_bytes (x : Nat)
    (h : 1 < needed_bytes (Int.ofNat x)) :
    2 ^ (8 * (needed_bytes (Int.ofNat x) - 1)) ≤ x := by
  by_contra hlt
  push_neg at hlt
  have h2 := (needed_bytes_le_iff x (needed_bytes (Int.ofNat x) - 1) (by omega)).mpr hlt
  omega

/-- Claim C2: `needed_bytes` returns width 1 on [0, 255]; for any larger
width `w` the argument lies in `[2^(8(w-1)), 2^(8w))`; and concretely
0↦1, 255↦1, 256↦2, 65535↦2, 65536↦3. -/
theorem claim_C2_needed_bytes (x : Nat) :
    (x ≤ 255 → needed_bytes (Int.ofNat x) = 1) ∧
    (1 < needed_bytes (Int.ofNat x) →
      2 ^ (8 * (needed_bytes (Int.ofNat x) - 1)) ≤ x ∧
        x < 2 ^ (8 * needed_bytes (Int.ofNat x))) ∧
    needed_bytes (Int.ofNat 0) = 1 ∧ needed_bytes (Int.ofNat 255) = 1 ∧
    needed_bytes (Int.ofNat 256) = 2 ∧ needed_bytes (Int.ofNat 65535) = 2 ∧
    needed_bytes (Int.ofNat 65536) = 3 := by
  refine ⟨?_,
    fun h => ⟨two_pow_le_of_lt_needed_bytes x h, lt_two_pow_needed_bytes x⟩,
    by decide, by decide, by decide, by decide, by decide⟩
  intro hx
  have h1 := needed_bytes_pos (Int.ofNat x)
  have h2 := (needed_bytes_le_iff x 1 (Nat.le_refl 1)).mpr (by omega)
  omega

/-- Witness for C2 at the inputs 200 and 65536. -/
theorem claim_C2_needed_bytes_witness :
    needed_bytes (Int.ofNat 200) = 1 ∧
      (2 ^ (8 * (needed_bytes (Int.ofNat 65536) - 1)) ≤ 65536 ∧
        65536 < 2 ^ (8 * needed_bytes (Int.ofNat 65536))) :=
  ⟨(claim_C2_needed_bytes 200).1 (by decide),
   (claim_C2_needed_bytes 65536).2.1 (by decide)⟩

/-! ### The solidifier's width search -/

theorem min_size_stop_true_iff (L R d : Nat) :
    min_size_stop L R d = true ↔ L + d * R ≤ 2 ^ (8 * d) - 1 := by
  simp only [min_size_stop, Bool.not_eq_true', decide_eq_false_iff_not]
  omega

theorem min_size_loop_ge (L R : Nat) :
    ∀ (fuel d : Nat), d ≤ min_size_loop L R fuel d := by
  intro fuel
  induction fuel with
  | zero => intro d; simp [min_size_loop]
  | succ fuel ih =>
    intro d
    simp only [min_size_loop]
    split
    · exact Nat.le_refl d
    · exact Nat.le_trans (Nat.le_succ d) (ih (d + 1))

theorem min_size_loop_stop (L R : Nat) :
    ∀ (fuel d : Nat), (∃ e, e ≤ fuel ∧ min_size_stop L R (d + e) = true) →
      min_size_stop L R (min_size_loop L R fuel d) = true := by
  intro fuel
  induction fuel with
  | zero =>
    intro d h
    obtain ⟨e, he, hstop⟩ := h
    have he0 : e = 0 := by omega
    subst he0
    simpa [min_size_loop] using hstop
  | succ fuel ih =>
    intro d h
    obtain ⟨e, he, hstop⟩ := h
    simp only [min_size_loop]
    split
    · assumption
    · rename_i hfalse
      apply ih
      cases e with
      | zero => exact absurd hstop (by simpa using hfalse)
      | succ e =>
        refine ⟨e, by omega, ?_⟩
        have harith : d + (e + 1) = d + 1 + e := by omega
        rw [harith] at hstop
        exact hstop

theorem min_size_loop_least (L R : Nat) :
    ∀ (fuel d k : Nat), d ≤ k → k < min_size_loop L R fuel d →
      min_size_stop L R k = false := by
  intro fuel
  induction fuel with
  | zero =>
    intro d k hdk hk
    simp [min_size_loop] at hk
    omega
  | succ fuel ih =>
    intro d k hdk hk
    simp only [min_size_loop] at hk
    by_cases hstop : min_size_stop L R d = true
    · rw [if_pos hstop] at hk; omega
    · rw [if_neg hstop] at hk
      rcases Nat.eq_or_lt_of_le hdk with heq | hlt
      · subst heq
        cases hcase : min_size_stop L R d
        · rfl
        · exact absurd hcase hstop
      · exact ih (d + 1) k hlt hk

theorem min_size_stop_exists (L R : Nat) :
    min_size_stop L R (L + R + 1) = true := by
  rw [min_size_stop_true_iff]
  have h1 : L + R + 1 < 2 ^ (L + R + 1) := Nat.lt_two_pow (L + R + 1)
  have h2 : (L + R + 1) * (L + R + 1) < 2 ^ (L + R + 1) * 2 ^ (L + R + 1) :=
    Nat.mul_lt_mul'' h1 h1
  have h3 : (2 : Nat) ^ (L + R + 1) * 2 ^ (L + R + 1) = 2 ^ (L + R + 1 + (L + R + 1)) :=
    (pow_add 2 (L + R + 1) (L + R + 1)).symm
  have h4 : (2 : Nat) ^ (L + R + 1 + (L + R + 1)) ≤ 2 ^ (8 * (L + R + 1)) :=
    Nat.pow_le_pow_right (by norm_num) (by omega)
  have h5 : L + (L + R + 1) * R ≤ (L + R + 1) * (L + R + 1) := by
    have hR : 1 + R ≤ L + R + 1 := by omega
    calc L + (L + R + 1) * R ≤ (L + R + 1) + (L + R + 1) * R := by omega
      _ = (L + R + 1) * (1 + R) := by ring
      _ ≤ (L + R + 1) * (L + R + 1) := Nat.mul_le_mul_left (L + R + 1) hR
  have h6 : L + (L + R + 1) * R < 2 ^ (8 * (L + R + 1)) := by
    calc L + (L + R + 1) * R ≤ (L + R + 1) * (L + R + 1) := h5
      _ < 2 ^ (L + R + 1) * 2 ^ (L + R + 1) := h2
      _ = 2 ^ (L + R + 1 + (L + R + 1)) := h3
      _ ≤ 2 ^ (8 * (L + R + 1)) := h4
  omega

theorem get_min_static_size_bytes_spec (asm : List Asm) :
    1 ≤ get_min_static_size_bytes asm ∧
    min_size_stop ((asm.map min_static_size).sum) (ref_count asm)
      (get_min_static_size_bytes asm) = true ∧
    ∀ w, 1 ≤ w →
      min_size_stop ((asm.map min_static_size).sum) (ref_count asm) w = true →
      get_min_static_size_bytes asm ≤ w := by
  have hrun : get_min_static_size_bytes asm =
      min_size_loop ((asm.map min_static_size).sum) (ref_count asm)
        ((asm.map min_static_size).sum + ref_count asm + 2) 1 := rfl
  rw [hrun]
  refine ⟨min_size_loop_ge _ _ _ 1, ?_, ?_⟩
  · apply min_size_loop_stop
    refine ⟨(asm.map min_static_size).sum + ref_count asm, by omega, ?_⟩
    have harith : 1 + ((asm.map min_static_size).sum + ref_count asm) =
        (asm.map min_static_size).sum + ref_count asm + 1 := by omega
    rw [harith]
    exact min_size_stop_exists _ _
  · intro w hw hstop
    by_contra hlt
    push_neg at hlt
    have hfalse := min_size_loop_least _ _ _ 1 w hw hlt
    rw [hfalse] at hstop
    simp at hstop

/-- Claim C3: the solidifier's uniform width `w` is the smallest positive
integer with `2^(8w) - 1 ≥ L + w·R` (`L` the sum of minimum static sizes,
`R` the reference count); when `w ≤ 6` every reference becomes a
`SizedRef` of width `w` and every other step is unchanged in place, and
when `w > 6` the solidifier fails. -/
theorem claim_C3_asm_to_solid (asm : List Asm) :
    (1 ≤ get_min_static_size_bytes asm ∧
      (asm.map min_static_size).sum + get_min_static_size_bytes asm * ref_count asm ≤
        2 ^ (8 * get_min_static_size_bytes asm) - 1 ∧
      ∀ w, 1 ≤ w →
        (asm.map min_static_size).sum + w * ref_count asm ≤ 2 ^ (8 * w) - 1 →
        get_min_static_size_bytes asm ≤ w) ∧
    (get_min_static_size_bytes asm ≤ 6 →
      asm_to_solid asm = some (asm.map fun step =>
        match step with
        | Asm.markRef m =>
          SolidAsm.sizedRef (SizedRef.mk (ARef.markRef m) (get_min_static_size_bytes asm))
        | Asm.markDeltaRef s e =>
          SolidAsm.sizedRef
            (SizedRef.mk (ARef.markDeltaRef s e) (get_min_static_size_bytes asm))
        | Asm.op o => SolidAsm.op o
        | Asm.mark m => SolidAsm.mark m
        | Asm.raw bs => SolidAsm.raw bs)) ∧
    (6 < get_min_static_size_bytes asm → asm_to_solid asm = none) := by
  obtain ⟨h1, h2, h3⟩ := get_min_static_size_bytes_spec asm
  refine ⟨⟨h1, (min_size_stop_true_iff _ _ _).mp h2,
      fun w hw hstop => h3 w hw ((min_size_stop_true_iff _ _ _).mpr hstop)⟩, ?_, ?_⟩
  · intro h6
    simp only [asm_to_solid]
    rw [if_pos h6]
  · intro h6
    simp only [asm_to_solid]
    rw [if_neg (by omega)]

/-- Witness for C3 on the stream `[Mark a, MarkRef a]` (width 1). -/
theorem claim_C3_asm_to_solid_witness :
    asm_to_solid [Asm.mark ([], 0), Asm.markRef ([], 0)] =
      some [SolidAsm.mark ([], 0),
        SolidAsm.sizedRef (SizedRef.mk (ARef.markRef ([], 0)) 1)] := by
  rw [(claim_C3_asm_to_solid [Asm.mark ([], 0), Asm.markRef ([], 0)]).2.1 (by decide)]
  rfl

/-! ### Association lists and `build_unique_dict` -/

theorem alist_lookup_append_left {K V : Type} [DecidableEq K] :
    ∀ (d1 d2 : List (K × V)) (k : K) (v : V), alist_lookup d1 k = some v →
      alist_lookup (d1 ++ d2) k = some v := by
  intro d1
  induction d1 with
  | nil => intro d2 k v h; simp [alist_lookup] at h
  | cons p rest ih =>
    intro d2 k v h
    obtain ⟨k', v'⟩ := p
    simp only [alist_lookup, List.cons_append] at h ⊢
    by_cases hk : k = k'
    · simpa [hk] using h
    · rw [if_neg hk] at h ⊢
      exact ih d2 k v h

theorem alist_lookup_append_right {K V : Type} [DecidableEq K] :
    ∀ (d1 d2 : List (K × V)) (k : K), alist_lookup d1 k = none →
      alist_lookup (d1 ++ d2) k = alist_lookup d2 k := by
  intro d1
  induction d1 with
  | nil => intro d2 k _; rfl
  | cons p rest ih =>
    intro d2 k h
    obtain ⟨k', v'⟩ := p
    simp only [alist_lookup, List.cons_append] at h ⊢
    by_cases hk : k = k'
    · rw [if_pos hk] at h; cases h
    · rw [if_neg hk] at h ⊢
      exact ih d2 k h

theorem build_unique_dict_aux_ok {K V : Type} [DecidableEq K] :
    ∀ (kvs d d' : List (K × V)), build_unique_dict_aux d kvs = Except.ok d' →
      d' = d ++ kvs ∧ (kvs.map Prod.fst).Nodup ∧
        ∀ k, k ∈ kvs.map Prod.fst → alist_lookup d k = none := by
  intro kvs
  induction kvs with
  | nil =>
    intro d d' h
    simp only [build_unique_dict_aux] at h
    cases h
    simp
  | cons p rest ih =>
    intro d d' h
    obtain ⟨k, v⟩ := p
    simp only [build_unique_dict_aux, set_unique] at h
    by_cases hk : (alist_lookup d k).isSome
    · rw [if_pos hk] at h; cases h
    · rw [if_neg hk] at h
      obtain ⟨h1, h2, h3⟩ := ih (d ++ [(k, v)]) d' h
      have hdk : alist_lookup d k = none := by
        cases hcase : alist_lookup d k
        · rfl
        · exact absurd (by simp [hcase]) hk
      have hknotin : k ∉ rest.map Prod.fst := by
        intro hmem
        have := h3 k hmem
        rw [alist_lookup_append_right d [(k, v)] k hdk] at this
        simp [alist_lookup] at this
      refine ⟨by simpa [List.append_assoc] using h1, ?_, ?_⟩
      · rw [List.map_cons]
        exact List.nodup_cons.mpr ⟨hknotin, h2⟩
      · intro k' hk'
        simp only [List.map_cons, List.mem_cons] at hk'
        rcases hk' with hk' | hk'
        · subst hk'; exact hdk
        · have := h3 k' hk'
          cases hcase : alist_lookup d k'
          · rfl
          · rw [alist_lookup_append_left d [(k, v)] k' _ hcase] at this
            cases this

theorem build_unique_dict_aux_ok_of {K V : Type} [DecidableEq K] :
    ∀ (kvs d : List (K × V)), (kvs.map Prod.fst).Nodup →
      (∀ k, k ∈ kvs.map Prod.fst → alist_lookup d k = none) →
      build_unique_dict_aux d kvs = Except.ok (d ++ kvs) := by
  intro kvs
  induction kvs with
  | nil => intro d _ _; simp [build_unique_dict_aux]
  | cons p rest ih =>
    intro d hnd hnone
    obtain ⟨k, v⟩ := p
    rw [List.map_cons] at hnd
    obtain ⟨hknotin, hndrest⟩ := List.nodup_cons.mp hnd
    have hdk : alist_lookup d k = none := hnone k (by simp)
    have hrest : ∀ k', k' ∈ rest.map Prod.fst → alist_lookup (d ++ [(k, v)]) k' = none := by
      intro k' hk'
      have hkk' : k' ≠ k := by
        intro heq
        subst heq
        exact hknotin hk'
      rw [alist_lookup_append_right d [(k, v)] k' (hnone k' (by simp [hk']))]
      simp [alist_lookup, hkk']
    have hset : set_unique d k v = Except.ok (d ++ [(k, v)]) := by
      simp [set_unique, hdk]
    have hres := ih (d ++ [(k, v)]) hndrest hrest
    simp only [build_unique_dict_aux, hset]
    rw [hres]
    simp [List.append_assoc]

theorem build_unique_dict_aux_err {K V : Type} [DecidableEq K] :
    ∀ (kvs d : List (K × V)) (k : K), build_unique_dict_aux d kvs = Except.error k →
      k ∈ kvs.map Prod.fst ∧
        ((alist_lookup d k).isSome ∨
          2 ≤ (kvs.map Prod.fst).countP fun x => decide (x = k)) := by
  intro kvs
  induction kvs with
  | nil => intro d k h; simp [build_unique_dict_aux] at h
  | cons p rest ih =>
    intro d k h
    obtain ⟨k', v⟩ := p
    simp only [build_unique_dict_aux, set_unique] at h
    by_cases hk : (alist_lookup d k').isSome
    · rw [if_pos hk] at h
      cases h
      exact ⟨by simp, Or.inl hk⟩
    · rw [if_neg hk] at h
      obtain ⟨h1, h2⟩ := ih (d ++ [(k', v)]) k h
      refine ⟨by simp [h1], ?_⟩
      rcases h2 with h2 | h2
      · by_cases hkk : k = k'
        · subst hkk
          refine Or.inr ?_
          have hc : 0 < (rest.map Prod.fst).countP fun x => decide (x = k) :=
            List.countP_pos_iff.mpr ⟨k, h1, by simp⟩
          rw [List.map_cons, List.countP_cons, if_pos (by simp)]
          omega
        · refine Or.inl ?_
          cases hcase : alist_lookup d k
          · rw [alist_lookup_append_right d [(k', v)] k hcase] at h2
            simp [alist_lookup, hkk] at h2
          · simp
      · refine Or.inr ?_
        rw [List.map_cons, List.countP_cons]
        rcases eq_or_ne k' k with hkk | hkk
        · rw [hkk, if_pos (by simp)]
          omega
        · rw [if_neg (by simp [hkk])]
          omega

theorem build_unique_dict_ok {K V : Type} [DecidableEq K] (kvs d : List (K × V))
    (h : build_unique_dict kvs = Except.ok d) :
    d = kvs ∧ (kvs.map Prod.fst).Nodup := by
  obtain ⟨h1, h2, _⟩ := build_unique_dict_aux_ok kvs [] d h
  exact ⟨by simpa using h1, h2⟩

theorem build_unique_dict_ok_of {K V : Type} [DecidableEq K] (kvs : List (K × V))
    (h : (kvs.map Prod.fst).Nodup) : build_unique_dict kvs = Except.ok kvs :=
  build_unique_dict_aux_ok_of kvs [] h (fun _ _ => rfl)

theorem build_unique_dict_err {K V : Type} [DecidableEq K] (kvs : List (K × V)) (k : K)
    (h : build_unique_dict kvs = Except.error k) :
    2 ≤ (kvs.map Prod.fst).countP fun x => decide (x = k) := by
  obtain ⟨_, h2⟩ := build_unique_dict_aux_err kvs [] k h
  rcases h2 with h2 | h2
  · simp [alist_lookup] at h2
  · exact h2

theorem marks_with_index_keys (asm : List Asm) :
    (marks_with_index asm).map Prod.fst = mark_ids asm := by
  suffices h : ∀ (i : Nat) (l : List Asm),
      ((enum_from i l).filterMap fun p =>
        match p.2 with
        | Asm.mark m => some (m, p.1)
        | _ => none).map Prod.fst =
      l.filterMap fun step =>
        match step with
        | Asm.mark m => some m
        | _ => none from h 0 asm
  intro i l
  induction l generalizing i with
  | nil => simp [enum_from]
  | cons a rest ih =>
    cases a <;> simp [enum_from, List.filterMap_cons, ih]

theorem enum_from_map_snd {α : Type} : ∀ (i : Nat) (l : List α),
    (enum_from i l).map Prod.snd = l := by
  intro i l
  induction l generalizing i with
  | nil => rfl
  | cons a rest ih => simp [enum_from, ih]

theorem enum_from_mem {α : Type} :
    ∀ (l : List α) (i : Nat) (p : Nat × α), p ∈ enum_from i l →
      i ≤ p.1 ∧ l[p.1 - i]? = some p.2 := by
  intro l
  induction l with
  | nil => intro i p h; simp [enum_from] at h
  | cons a rest ih =>
    intro i p h
    simp only [enum_from, List.mem_cons] at h
    rcases h with h | h
    · subst h; simp
    · obtain ⟨h1, h2⟩ := ih (i + 1) p h
      refine ⟨by omega, ?_⟩
      have harith : p.1 - i = (p.1 - (i + 1)) + 1 := by omega
      rw [harith]
      simpa using h2

theorem check_step_ok_iff (asm : List Asm) (i : Nat) (step : Asm) :
    check_step (marks_with_index asm) i step = Except.ok () ↔
      spec_step_ok asm step = true := by
  cases step with
  | markRef m =>
    cases hl : alist_lookup (marks_with_index asm) m <;>
      simp [check_step, spec_step_ok, mark_pos, hl]
  | markDeltaRef s e =>
    cases hs : alist_lookup (marks_with_index asm) s <;>
      cases he : alist_lookup (marks_with_index asm) e <;>
        simp [check_step, spec_step_ok, mark_pos, hs, he]
  | op o => simp [check_step, spec_step_ok]
  | mark m => simp [check_step, spec_step_ok]
  | raw bs => simp [check_step, spec_step_ok]

theorem check_step_err_shape (indices : List (MarkId × Nat)) (i : Nat) (step : Asm)
    (e : VErr) (h : check_step indices i step = Except.error e) :
    (∃ m, e = VErr.invalidRef i m) ∨ e = VErr.negDelta i := by
  cases step with
  | markRef m =>
    simp only [check_step] at h
    by_cases hl : (alist_lookup indices m).isSome
    · rw [if_pos hl] at h; cases h
    · rw [if_neg hl] at h; cases h; exact Or.inl ⟨m, rfl⟩
  | markDeltaRef s e2 =>
    cases hs : alist_lookup indices s with
    | none =>
      simp only [check_step, hs] at h
      cases h
      exact Or.inl ⟨s, rfl⟩
    | some si =>
      cases he : alist_lookup indices e2 with
      | none =>
        simp only [check_step, hs, he] at h
        cases h
        exact Or.inl ⟨e2, rfl⟩
      | some ei =>
        simp only [check_step, hs, he] at h
        by_cases hlt : ei > si
        · rw [if_pos hlt] at h; cases h
        · rw [if_neg hlt] at h; cases h; exact Or.inr rfl
  | op o => cases h
  | mark m => cases h
  | raw bs => cases h

theorem check_steps_ok_iff (indices : List (MarkId × Nat)) :
    ∀ (l : List (Nat × Asm)), check_steps indices l = Except.ok () ↔
      ∀ p ∈ l, check_step indices p.1 p.2 = Except.ok () := by
  intro l
  induction l with
  | nil => simp [check_steps]
  | cons p rest ih =>
    obtain ⟨i, step⟩ := p
    simp only [check_steps]
    cases hc : check_step indices i step with
    | error e => simp [hc, ih]
    | ok u => cases u; simp [hc, ih]

theorem check_steps_err (indices : List (MarkId × Nat)) :
    ∀ (l : List (Nat × Asm)) (e : VErr), check_steps indices l = Except.error e →
      ∃ p ∈ l, check_step indices p.1 p.2 = Except.error e := by
  intro l
  induction l with
  | nil => intro e h; simp [check_steps] at h
  | cons p rest ih =>
    intro e h
    obtain ⟨i, step⟩ := p
    simp only [check_steps] at h
    cases hc : check_step indices i step with
    | error e2 =>
      rw [hc] at h
      cases h
      exact ⟨(i, step), by simp, hc⟩
    | ok u =>
      cases u
      rw [hc] at h
      obtain ⟨q, hq1, hq2⟩ := ih e h
      exact ⟨q, by simp [hq1], hq2⟩

theorem countP_eq_le_one_of_nodup {α : Type} [DecidableEq α] :
    ∀ (l : List α), l.Nodup → ∀ a : α,
      (l.countP fun x => decide (x = a)) ≤ 1 := by
  intro l
  induction l with
  | nil => intro _ a; simp
  | cons b rest ih =>
    intro hnd a
    obtain ⟨hb, hrest⟩ := List.nodup_cons.mp hnd
    rw [List.countP_cons]
    rcases eq_or_ne b a with hba | hba
    · subst hba
      have hz : (rest.countP fun x => decide (x = b)) = 0 :=
        List.countP_eq_zero.mpr fun x hx => by
          simp only [decide_eq_true_eq]
          intro hxa
          subst hxa
          exact hb hx
      simp [hz]
    · have := ih hrest a
      simp [hba]
      omega

theorem validate_asm_characterization (asm : List Asm) :
    (validate_asm asm = Except.ok () ↔ valid_spec asm) ∧
    (¬ (mark_ids asm).Nodup →
      ∃ k, validate_asm asm = Except.error (VErr.dupKey k) ∧
        2 ≤ ((mark_ids asm).countP fun x => decide (x = k))) ∧
    ((mark_ids asm).Nodup → ¬ (∀ step ∈ asm, spec_step_ok asm step = true) →
      ∃ i, (∃ m, validate_asm asm = Except.error (VErr.invalidRef i m)) ∨
        validate_asm asm = Except.error (VErr.negDelta i)) := by
  cases hbuild : build_unique_dict (marks_with_index asm) with
  | error k =>
    have hcount : 2 ≤ ((mark_ids asm).countP fun x => decide (x = k)) := by
      have hc := build_unique_dict_err _ k hbuild
      rwa [marks_with_index_keys] at hc
    have hnotnodup : ¬ (mark_ids asm).Nodup := by
      intro hnd
      have hle := countP_eq_le_one_of_nodup _ hnd k
      omega
    have hval : validate_asm asm = Except.error (VErr.dupKey k) := by
      simp only [validate_asm, hbuild]
    refine ⟨?_, fun _ => ⟨k, hval, hcount⟩, fun hnd _ => absurd hnd hnotnodup⟩
    constructor
    · intro h; rw [hval] at h; cases h
    · intro h; exact absurd h.1 hnotnodup
  | ok indices =>
    obtain ⟨hind, hnodupkeys⟩ := build_unique_dict_ok _ _ hbuild
    subst hind
    have hnodup : (mark_ids asm).Nodup := by
      rwa [marks_with_index_keys] at hnodupkeys
    have hval : validate_asm asm =
        check_steps (marks_with_index asm) (enum_from 0 asm) := by
      simp only [validate_asm, hbuild]
    have hstep_iff : (∀ p ∈ enum_from 0 asm,
        check_step (marks_with_index asm) p.1 p.2 = Except.ok ()) ↔
        ∀ step ∈ asm, spec_step_ok asm step = true := by
      constructor
      · intro h step hstep
        have hmem : step ∈ (enum_from 0 asm).map Prod.snd := by
          rw [enum_from_map_snd]; exact hstep
        obtain ⟨p, hp, hps⟩ := List.mem_map.mp hmem
        have hok := h p hp
        rw [hps] at hok
        exact (check_step_ok_iff asm p.1 step).mp hok
      · intro h p hp
        refine (check_step_ok_iff asm p.1 p.2).mpr (h p.2 ?_)
        have hmem : p.2 ∈ (enum_from 0 asm).map Prod.snd :=
          List.mem_map_of_mem Prod.snd hp
        rwa [enum_from_map_snd] at hmem
    refine ⟨?_, fun h => absurd hnodup h, ?_⟩
    · rw [hval, check_steps_ok_iff]
      constructor
      · intro h; exact ⟨hnodup, hstep_iff.mp h⟩
      · intro h; exact hstep_iff.mpr h.2
    · intro _ hnot
      cases hcs : check_steps (marks_with_index asm) (enum_from 0 asm) with
      | ok u =>
        cases u
        exact absurd (hstep_iff.mp ((check_steps_ok_iff _ _).mp hcs)) hnot
      | error e =>
        obtain ⟨p, hp, hpe⟩ := check_steps_err _ _ e hcs
        have hshape := check_step_err_shape _ p.1 p.2 e hpe
        rcases hshape with ⟨m, hm⟩ | hm
        · exact ⟨p.1, Or.inl ⟨m, by rw [hval, hcs, hm]⟩⟩
        · exact ⟨p.1, Or.inr (by rw [hval, hcs, hm])⟩

/-- Claim C1: `validate_asm` succeeds iff all labels have pairwise
distinct identities, every reference names only present label identities,
and every distance reference's end label has a strictly greater position
index than its start label; otherwise the failure is a duplicate-identity
error (an identity repeats) or an invalid-reference / negative-delta
error, and no other error class exists at this stage. -/
theorem claim_C1_validate_asm (asm : List Asm) :
    (validate_asm asm = Except.ok () ↔ valid_spec asm) ∧
    (¬ (mark_ids asm).Nodup →
      ∃ k, validate_asm asm = Except.error (VErr.dupKey k) ∧
        2 ≤ ((mark_ids asm).countP fun x => decide (x = k))) ∧
    ((mark_ids asm).Nodup → ¬ (∀ step ∈ asm, spec_step_ok asm step = true) →
      ∃ i, (∃ m, validate_asm asm = Except.error (VErr.invalidRef i m)) ∨
        validate_asm asm = Except.error (VErr.negDelta i)) :=
  validate_asm_characterization asm

/-- Witness for C1 on a small valid stream. -/
theorem claim_C1_validate_asm_witness :
    validate_asm [Asm.mark ([], 0), Asm.mark ([], 1),
      Asm.markDeltaRef ([], 0) ([], 1), Asm.markRef ([], 1)] = Except.ok () :=
  (claim_C1_validate_asm _).1.mpr ⟨by decide, by decide⟩

theorem check_step_err_detail (asm : List Asm) (i : Nat) (step : Asm) (e : VErr)
    (h : check_step (marks_with_index asm) i step = Except.error e) :
    (∃ m, e = VErr.invalidRef i m ∧ mark_pos asm m = none ∧
      (step = Asm.markRef m ∨ (∃ e2, step = Asm.markDeltaRef m e2) ∨
        (∃ s2, step = Asm.markDeltaRef s2 m))) ∨
    (∃ s e2 si ei, e = VErr.negDelta i ∧ step = Asm.markDeltaRef s e2 ∧
      mark_pos asm s = some si ∧ mark_pos asm e2 = some ei ∧ ¬ si < ei) := by
  cases step with
  | markRef m =>
    cases hl : alist_lookup (marks_with_index asm) m with
    | some v =>
      simp only [check_step, hl, Option.isSome] at h
      cases h
    | none =>
      simp only [check_step, hl, Option.isSome] at h
      cases h
      exact Or.inl ⟨m, rfl, hl, Or.inl rfl⟩
  | markDeltaRef s e2 =>
    cases hs : alist_lookup (marks_with_index asm) s with
    | none =>
      simp only [check_step, hs] at h
      cases h
      exact Or.inl ⟨s, rfl, hs, Or.inr (Or.inl ⟨e2, rfl⟩)⟩
    | some si =>
      cases he : alist_lookup (marks_with_index asm) e2 with
      | none =>
        simp only [check_step, hs, he] at h
        cases h
        exact Or.inl ⟨e2, rfl, he, Or.inr (Or.inr ⟨s, rfl⟩)⟩
      | some ei =>
        simp only [check_step, hs, he] at h
        by_cases hlt : ei > si
        · rw [if_pos hlt] at h; cases h
        · rw [if_neg hlt] at h
          cases h
          exact Or.inr ⟨s, e2, si, ei, rfl, rfl, hs, he, hlt⟩
  | op o => cases h
  | mark m => cases h
  | raw bs => cases h

/-- Claim C9 (amended): invalid-reference and negative-delta validation
errors name the offending step's position (and the missing or misordered
identity); the duplicate-identity error instead names only the duplicated
identity, not the position of the offending step. -/
theorem claim_C9_error_payloads (asm : List Asm) (e : VErr)
    (h : validate_asm asm = Except.error e) :
    (∀ k, e = VErr.dupKey k →
      2 ≤ ((mark_ids asm).countP fun x => decide (x = k))) ∧
    (∀ i m, e = VErr.invalidRef i m →
      ∃ step, asm[i]? = some step ∧ mark_pos asm m = none ∧
        (step = Asm.markRef m ∨ (∃ e2, step = Asm.markDeltaRef m e2) ∨
          (∃ s2, step = Asm.markDeltaRef s2 m))) ∧
    (∀ i, e = VErr.negDelta i →
      ∃ s e2 si ei, asm[i]? = some (Asm.markDeltaRef s e2) ∧
        mark_pos asm s = some si ∧ mark_pos asm e2 = some ei ∧ ¬ si < ei) := by
  cases hbuild : build_unique_dict (marks_with_index asm) with
  | error k =>
    have hval : validate_asm asm = Except.error (VErr.dupKey k) := by
      simp only [validate_asm, hbuild]
    rw [hval] at h
    cases h
    refine ⟨?_, ?_, ?_⟩
    · intro k' hk'
      cases hk'
      have hc := build_unique_dict_err _ k hbuild
      rwa [marks_with_index_keys] at hc
    · intro i m him; cases him
    · intro i hi; cases hi
  | ok indices =>
    obtain ⟨hind, _⟩ := build_unique_dict_ok _ _ hbuild
    subst hind
    have hval : validate_asm asm =
        check_steps (marks_with_index asm) (enum_from 0 asm) := by
      simp only [validate_asm, hbuild]
    rw [hval] at h
    obtain ⟨p, hp, hpe⟩ := check_steps_err _ _ e h
    obtain ⟨_, hget⟩ := enum_from_mem _ 0 p hp
    rw [Nat.sub_zero] at hget
    rcases check_step_err_detail asm p.1 p.2 e hpe with
      ⟨m, he, hnone, hshape⟩ | ⟨s, e2, si, ei, he, hstep, hs2, hee, hlt⟩
    · subst he
      refine ⟨(by intro k hk; cases hk), ?_, (by intro i hi; cases hi)⟩
      intro i m' hm
      cases hm
      exact ⟨p.2, hget, hnone, hshape⟩
    · subst he
      refine ⟨(by intro k hk; cases hk), (by intro i m hm; cases hm), ?_⟩
      intro i hi
      cases hi
      refine ⟨s, e2, si, ei, ?_, hs2, hee, hlt⟩
      rw [← hstep]
      exact hget

/-- Witness for C9 on a duplicate-label stream. -/
theorem claim_C9_error_payloads_witness :
    2 ≤ ((mark_ids [Asm.mark ([], 0), Asm.mark ([], 0)]).countP
      fun x => decide (x = ([], 0))) :=
  (claim_C9_error_payloads [Asm.mark ([], 0), Asm.mark ([], 0)]
    (VErr.dupKey ([], 0)) rfl).1 ([], 0) rfl

/-- Counterexample for C9: the duplicate-identity error does not name the
offending step's position: two streams whose duplicate label sits at
different positions (index 1 versus index 2) produce the very same error
value, which carries only the duplicated identity. -/
theorem claim_C9_counterexample :
    validate_asm [Asm.mark ([], 0), Asm.mark ([], 0)] =
        Except.error (VErr.dupKey ([], 0)) ∧
      validate_asm [Asm.raw [0], Asm.mark ([], 0), Asm.mark ([], 0)] =
        Except.error (VErr.dupKey ([], 0)) :=
  ⟨rfl, rfl⟩

/-! ### `mapM` over `Option` and the shrinker's fixed point (C5, C4) -/

theorem mapM_option_rel {α β : Type} (f : α → Option β) :
    ∀ (l : List α) (r : List β), l.mapM f = some r →
      List.Forall₂ (fun a b => f a = some b) l r := by
  intro l
  induction l with
  | nil =>
    intro r h
    simp only [List.mapM_nil, Option.pure_def, Option.some.injEq] at h
    subst h
    constructor
  | cons a rest ih =>
    intro r h
    rw [List.mapM_cons] at h
    cases hf : f a with
    | none => rw [hf] at h; simp at h
    | some b =>
      rw [hf] at h
      cases hrest : rest.mapM f with
      | none => rw [hrest] at h; simp at h
      | some bs =>
        rw [hrest] at h
        simp at h
        subst h
        exact List.Forall₂.cons hf (ih bs hrest)

theorem mapM_option_isSome {α β : Type} (f : α → Option β) :
    ∀ (l : List α), (∀ a ∈ l, (f a).isSome) → ∃ r, l.mapM f = some r := by
  intro l
  induction l with
  | nil => intro _; exact ⟨[], rfl⟩
  | cons a rest ih =>
    intro hall
    obtain ⟨b, hb⟩ := Option.isSome_iff_exists.mp (hall a (by simp))
    obtain ⟨bs, hbs⟩ := ih fun x hx => hall x (by simp [hx])
    refine ⟨b :: bs, ?_⟩
    rw [List.mapM_cons, hb, hbs]
    rfl

theorem shorten_step_false (offsets : List (MarkId × Nat)) :
    ∀ (step step' : SolidAsm), shorten_step offsets step = some (false, step') →
      step' = step := by
  intro step step' h
  cases step with
  | op o => cases h; rfl
  | mark m => cases h; rfl
  | raw b => cases h; rfl
  | sizedRef sr =>
    obtain ⟨r, sz⟩ := sr
    cases r with
    | markRef m =>
      cases hl : alist_lookup offsets m with
      | none => simp [shorten_step, hl] at h
      | some off =>
        simp only [shorten_step, hl] at h
        by_cases hreq : needed_bytes (Int.ofNat off) ≠ sz
        · rw [if_pos hreq] at h
          cases h
        · rw [if_neg hreq] at h
          cases h
          rfl
    | markDeltaRef s e =>
      cases hs : alist_lookup offsets s with
      | none => simp [shorten_step, hs] at h
      | some soff =>
        cases he : alist_lookup offsets e with
        | none => simp [shorten_step, hs, he] at h
        | some eoff =>
          simp only [shorten_step, hs, he] at h
          by_cases hreq : needed_bytes (Int.ofNat eoff - Int.ofNat soff) ≠ sz
          · rw [if_pos hreq] at h
            cases h
          · rw [if_neg hreq] at h
            cases h
            rfl

theorem mapM_shorten_all_false (offs : List (MarkId × Nat)) :
    ∀ (asm : List SolidAsm) (l : List (Bool × SolidAsm)),
      asm.mapM (shorten_step offs) = some l → (∀ p ∈ l, p.1 = false) →
      l.map Prod.snd = asm := by
  intro asm
  induction asm with
  | nil =>
    intro l h _
    simp only [List.mapM_nil, Option.pure_def, Option.some.injEq] at h
    subst h
    rfl
  | cons a rest ih =>
    intro l h hall
    rw [List.mapM_cons] at h
    cases hf : shorten_step offs a with
    | none => rw [hf] at h; simp at h
    | some b =>
      rw [hf] at h
      cases hrest : rest.mapM (shorten_step offs) with
      | none => rw [hrest] at h; simp at h
      | some bs =>
        rw [hrest] at h
        simp at h
        subst h
        obtain ⟨bf, b2⟩ := b
        have hb1 : bf = false := hall (bf, b2) (by simp)
        subst hb1
        have hba := shorten_step_false offs a b2 hf
        subst hba
        simp only [List.map_cons]
        rw [ih bs hrest fun p hp => hall p (by simp [hp])]

theorem shorten_asm_once_false_fix (asm t : List SolidAsm)
    (h : shorten_asm_once asm = some (false, t)) : t = asm := by
  simp only [shorten_asm_once] at h
  cases hm : asm.mapM (shorten_step (get_solid_offsets asm)) with
  | none => rw [hm] at h; cases h
  | some l =>
    rw [hm] at h
    simp only [Option.map_some'] at h
    have hp := Option.some.inj h
    have h1 : l.any Prod.fst = false := congrArg Prod.fst hp
    have h2 : l.map Prod.snd = t := congrArg Prod.snd hp
    rw [List.any_eq_false] at h1
    rw [← h2]
    exact mapM_shorten_all_false _ asm l hm fun p hp => by simpa using h1 p hp

/-- Claim C5: when a shrink pass reports no change it returns the input
stream unchanged, and a further pass over that output again reports no
change with an equal stream (the shrinker's fixed point is genuine). -/
theorem claim_C5_shorten_idempotent (asm t : List SolidAsm)
    (h : shorten_asm_once asm = some (false, t)) :
    t = asm ∧ shorten_asm_once t = some (false, t) := by
  have ht := shorten_asm_once_false_fix asm t h
  subst ht
  exact ⟨rfl, h⟩

/-- Witness for C5 on a one-reference stream already at its fixed
point. -/
theorem claim_C5_shorten_idempotent_witness :
    [SolidAsm.sizedRef (SizedRef.mk (ARef.markRef ([], 0)) 1),
        SolidAsm.mark ([], 0)] =
      [SolidAsm.sizedRef (SizedRef.mk (ARef.markRef ([], 0)) 1),
        SolidAsm.mark ([], 0)] ∧
      shorten_asm_once [SolidAsm.sizedRef (SizedRef.mk (ARef.markRef ([], 0)) 1),
        SolidAsm.mark ([], 0)] =
      some (false, [SolidAsm.sizedRef (SizedRef.mk (ARef.markRef ([], 0)) 1),
        SolidAsm.mark ([], 0)]) :=
  claim_C5_shorten_idempotent _ _ (by rfl)

/-! ### Emitted byte counts (C4) -/

theorem be_bytes_length : ∀ (n v : Nat), (be_bytes v n).length = n := by
  intro n
  induction n with
  | zero => intro v; rfl
  | succ n ih => intro v; simp [be_bytes, ih]

theorem to_bytes_be_length (value : Int) (size : Nat) (bs : List Nat)
    (h : to_bytes_be value size = some bs) : bs.length = size := by
  simp only [to_bytes_be] at h
  by_cases hc : 0 ≤ value ∧ value < 2 ^ (8 * size)
  · rw [if_pos hc] at h
    cases h
    exact be_bytes_length size value.toNat
  · rw [if_neg hc] at h
    cases h

theorem emit_step_length (offsets : List (MarkId × Nat)) :
    ∀ (step : SolidAsm) (bs : List Nat), emit_step offsets step = some bs →
      bs.length = get_size step := by
  intro step bs h
  cases step with
  | op o =>
    cases h
    simp [Op.get_bytes, get_size, Nat.add_comm]
  | mark m => cases h; rfl
  | raw b => cases h; rfl
  | sizedRef sr =>
    obtain ⟨r, sz⟩ := sr
    cases r with
    | markRef m =>
      cases hl : alist_lookup offsets m with
      | none => simp [emit_step, hl] at h
      | some off =>
        simp only [emit_step, hl] at h
        cases ht : to_bytes_be (Int.ofNat off) sz with
        | none => rw [ht] at h; cases h
        | some ibs =>
          rw [ht] at h
          simp only [Option.map_some'] at h
          cases h
          have hlen : ibs.length = sz := to_bytes_be_length _ _ _ ht
          simp [create_push, Op.get_bytes, get_size, hlen, Nat.add_comm]
    | markDeltaRef s e =>
      cases hs : alist_lookup offsets s with
      | none => simp [emit_step, hs] at h
      | some soff =>
        cases he : alist_lookup offsets e with
        | none => simp [emit_step, hs, he] at h
        | some eoff =>
          simp only [emit_step, hs, he] at h
          cases ht : to_bytes_be (Int.ofNat eoff - Int.ofNat soff) sz with
          | none => rw [ht] at h; cases h
          | some ibs =>
            rw [ht] at h
            simp only [Option.map_some'] at h
            cases h
            have hlen : ibs.length = sz := to_bytes_be_length _ _ _ ht
            simp [create_push, Op.get_bytes, get_size, hlen, Nat.add_comm]

/-- Claim C4: whenever the emitter succeeds, the emitted byte sequence's
length is the sum of the steps' concrete sizes (instruction:
`1 + len(immediate)`; raw bytes: length; label: 0; sized reference:
`1 + width`, the push-style instruction for a `b`-byte immediate encoding
to `1 + b` bytes). -/
theorem claim_C4_emitted_length (asm : List SolidAsm) (bs : List Nat)
    (h : solid_asm_to_bytecode asm = some bs) :
    bs.length = (asm.map get_size).sum := by
  simp only [solid_asm_to_bytecode] at h
  cases hm : asm.mapM (emit_step (get_solid_offsets asm)) with
  | none => rw [hm] at h; cases h
  | some l =>
    rw [hm] at h
    simp only [Option.map_some'] at h
    cases h
    generalize hg : get_solid_offsets asm = offs at hm
    have hrel := mapM_option_rel _ asm l hm
    clear hm hg
    induction hrel with
    | nil => rfl
    | cons hab hrest ih =>
      rename_i a b as2 bs2
      simp only [List.flatten_cons, List.length_append, List.map_cons, List.sum_cons]
      rw [emit_step_length offs a b hab, ih]

/-- Witness for C4 on a four-step stream emitting five bytes. -/
theorem claim_C4_emitted_length_witness :
    ([128, 96, 3, 1, 2] : List Nat).length =
      (([SolidAsm.op (Op.mk 128 []),
          SolidAsm.sizedRef (SizedRef.mk (ARef.markRef ([], 0)) 1),
          SolidAsm.mark ([], 0), SolidAsm.raw [1, 2]]).map get_size).sum :=
  claim_C4_emitted_length _ _ (by rfl)

/-! ### The shrink loop's budget semantics (C6) -/

/-- Claim C6 (amended): `asm_to_bytecode`'s own default budget is `-1`,
which is the sentinel requesting unbounded iteration: under any negative
budget the shrink loop can only exit at a genuine fixed point of
`shorten_asm_once`, never by budget exhaustion; the default of 100
belongs to `shorten_asm` itself when called directly. -/
theorem claim_C6_default_budget :
    asm_to_bytecode_default_max_reduce_iters = -1 ∧
    shorten_asm_default_max_iters = 100 ∧
    ∀ (fuel : Nat) (m : Int) (asm t : List SolidAsm), m < 0 →
      shorten_loop asm m fuel = ShortenRes.out t →
      shorten_asm_once t = some (false, t) := by
  refine ⟨rfl, rfl, ?_⟩
  intro fuel
  induction fuel with
  | zero =>
    intro m asm t _ h
    simp [shorten_loop] at h
  | succ fuel ih =>
    intro m asm t hm h
    simp only [shorten_loop] at h
    rw [if_neg (by omega)] at h
    cases hso : shorten_asm_once asm with
    | none => rw [hso] at h; cases h
    | some p =>
      obtain ⟨changed, asm'⟩ := p
      simp only [hso] at h
      cases changed with
      | true =>
        rw [if_pos rfl] at h
        exact ih (m - 1) asm' t (by omega) h
      | false =>
        rw [if_neg (by decide)] at h
        cases h
        have hfix := shorten_asm_once_false_fix asm t hso
        subst hfix
        exact hso

/-- Witness for C6 on the empty stream at budget -1. -/
theorem claim_C6_default_budget_witness :
    shorten_asm_once [] = some (false, ([] : List SolidAsm)) :=
  claim_C6_default_budget.2.2 1 (-1) [] [] (by decide) (by rfl)

/-- Counterexample for C6: when the caller of `asm_to_bytecode` does not
override the budget, the shrinker receives `-1` (the unbounded sentinel),
not 100; the default of 100 is `shorten_asm`'s own and is not what the
full pipeline passes. -/
theorem claim_C6_counterexample :
    asm_to_bytecode_default_max_reduce_iters = -1 ∧
      asm_to_bytecode_default_max_reduce_iters ≠ 100 ∧
      asm_to_bytecode_default_max_reduce_iters ≠ shorten_asm_default_max_iters :=
  ⟨rfl, by decide, by decide⟩

/-! ### Offset-map keys and the post-validation totality of lookups (C10) -/

theorem alist_lookup_isSome_mem {K V : Type} [DecidableEq K] :
    ∀ (d : List (K × V)) (k : K),
      (alist_lookup d k).isSome ↔ k ∈ d.map Prod.fst := by
  intro d
  induction d with
  | nil => intro k; simp [alist_lookup]
  | cons p rest ih =>
    intro k
    obtain ⟨k', v⟩ := p
    by_cases hk : k = k' <;> simp [alist_lookup, hk, ih]

theorem dict_insert_lookup {K V : Type} [DecidableEq K] :
    ∀ (d : List (K × V)) (k k' : K) (v : V),
      alist_lookup (dict_insert d k v) k' =
        if k' = k then some v else alist_lookup d k' := by
  intro d
  induction d with
  | nil =>
    intro k k' v
    by_cases h : k' = k <;> simp [dict_insert, alist_lookup, h]
  | cons p rest ih =>
    intro k k' v
    obtain ⟨k2, v2⟩ := p
    by_cases hk : k = k2
    · subst hk
      simp only [dict_insert, if_pos rfl]
      by_cases h' : k' = k <;> simp [alist_lookup, h']
    · simp only [dict_insert, if_neg hk]
      by_cases h' : k' = k2
      · subst h'
        have hne : ¬ k' = k := fun he => hk he.symm
        simp [alist_lookup, hne]
      · simp [alist_lookup, h', ih]

theorem solid_mark_ids_cons (a : SolidAsm) (rest : List SolidAsm) :
    solid_mark_ids (a :: rest) =
      (match a with | SolidAsm.mark m => [m] | _ => []) ++ solid_mark_ids rest := by
  cases a <;> simp [solid_mark_ids, List.filterMap_cons]

theorem get_solid_offsets_aux_keys :
    ∀ (s : List SolidAsm) (off : Nat) (d : List (MarkId × Nat)) (m : MarkId),
      (alist_lookup (get_solid_offsets_aux s off d) m).isSome ↔
        m ∈ solid_mark_ids s ∨ (alist_lookup d m).isSome := by
  intro s
  induction s with
  | nil => intro off d m; simp [get_solid_offsets_aux, solid_mark_ids]
  | cons step rest ih =>
    intro off d m
    cases step with
    | mark m2 =>
      simp only [get_solid_offsets_aux]
      rw [ih, dict_insert_lookup, solid_mark_ids_cons]
      by_cases hm : m = m2 <;> simp [hm]
    | op o =>
      simp only [get_solid_offsets_aux]
      rw [ih, solid_mark_ids_cons]
      simp
    | sizedRef sr =>
      simp only [get_solid_offsets_aux]
      rw [ih, solid_mark_ids_cons]
      simp
    | raw bs =>
      simp only [get_solid_offsets_aux]
      rw [ih, solid_mark_ids_cons]
      simp

theorem get_solid_offsets_keys (s : List SolidAsm) (m : MarkId) :
    (alist_lookup (get_solid_offsets s) m).isSome ↔ m ∈ solid_mark_ids s := by
  have h := get_solid_offsets_aux_keys s 0 [] m
  simpa [get_solid_offsets, alist_lookup] using h

theorem shorten_step_proj (offsets : List (MarkId × Nat)) :
    ∀ (step : SolidAsm) (p : Bool × SolidAsm),
      shorten_step offsets step = some p →
      step_sref_ids p.2 = step_sref_ids step ∧
        solid_mark_ids [p.2] = solid_mark_ids [step] := by
  intro step p h
  cases step with
  | op o => cases h; exact ⟨rfl, rfl⟩
  | mark m => cases h; exact ⟨rfl, rfl⟩
  | raw b => cases h; exact ⟨rfl, rfl⟩
  | sizedRef sr =>
    obtain ⟨r, sz⟩ := sr
    cases r with
    | markRef m =>
      cases hl : alist_lookup offsets m with
      | none => simp [shorten_step, hl] at h
      | some off =>
        simp only [shorten_step, hl] at h
        by_cases hreq : needed_bytes (Int.ofNat off) ≠ sz
        · rw [if_pos hreq] at h
          cases h
          exact ⟨rfl, rfl⟩
        · rw [if_neg hreq] at h
          cases h
          exact ⟨rfl, rfl⟩
    | markDeltaRef a b =>
      cases hs : alist_lookup offsets a with
      | none => simp [shorten_step, hs] at h
      | some soff =>
        cases he : alist_lookup offsets b with
        | none => simp [shorten_step, hs, he] at h
        | some eoff =>
          simp only [shorten_step, hs, he] at h
          by_cases hreq : needed_bytes (Int.ofNat eoff - Int.ofNat soff) ≠ sz
          · rw [if_pos hreq] at h
            cases h
            exact ⟨rfl, rfl⟩
          · rw [if_neg hreq] at h
            cases h
            exact ⟨rfl, rfl⟩

theorem solid_mark_ids_cons_split (a : SolidAsm) (rest : List SolidAsm) :
    solid_mark_ids (a :: rest) = solid_mark_ids [a] ++ solid_mark_ids rest := by
  cases a <;> simp [solid_mark_ids, List.filterMap_cons]

theorem mark_ids_cons_split (a : Asm) (rest : List Asm) :
    mark_ids (a :: rest) = mark_ids [a] ++ mark_ids rest := by
  cases a <;> simp [mark_ids, List.filterMap_cons]

theorem shorten_asm_once_proj (s : List SolidAsm) (c : Bool) (s' : List SolidAsm)
    (h : shorten_asm_once s = some (c, s')) :
    sref_ids s' = sref_ids s ∧ solid_mark_ids s' = solid_mark_ids s := by
  simp only [shorten_asm_once] at h
  cases hm : s.mapM (shorten_step (get_solid_offsets s)) with
  | none => rw [hm] at h; cases h
  | some l =>
    rw [hm] at h
    simp only [Option.map_some'] at h
    have hp := Option.some.inj h
    have h2 : l.map Prod.snd = s' := congrArg Prod.snd hp
    subst h2
    generalize hg : get_solid_offsets s = offs at hm
    have hrel := mapM_option_rel _ s l hm
    clear hm h hp hg
    induction hrel with
    | nil => exact ⟨rfl, rfl⟩
    | cons hab hrest ih =>
      rename_i a b as2 bs2
      obtain ⟨hsr, hmk⟩ := shorten_step_proj offs a b hab
      obtain ⟨ih1, ih2⟩ := ih
      constructor
      · simp only [List.map_cons, sref_ids]
        rw [hsr, ih1]
      · rw [List.map_cons, solid_mark_ids_cons_split, hmk, ih2,
          ← solid_mark_ids_cons_split]

theorem shorten_step_total (offsets : List (MarkId × Nat)) (step : SolidAsm)
    (hcov : ∀ m ∈ step_sref_ids step, (alist_lookup offsets m).isSome) :
    (shorten_step offsets step).isSome := by
  cases step with
  | op o => simp [shorten_step]
  | mark m => simp [shorten_step]
  | raw b => simp [shorten_step]
  | sizedRef sr =>
    obtain ⟨r, sz⟩ := sr
    cases r with
    | markRef m =>
      have hm := hcov m (by simp [step_sref_ids])
      obtain ⟨off, hoff⟩ := Option.isSome_iff_exists.mp hm
      simp only [shorten_step, hoff]
      by_cases hreq : needed_bytes (Int.ofNat off) ≠ sz
      · rw [if_pos hreq]; rfl
      · rw [if_neg hreq]; rfl
    | markDeltaRef a b =>
      have ha := hcov a (by simp [step_sref_ids])
      have hb := hcov b (by simp [step_sref_ids])
      obtain ⟨ao, hao⟩ := Option.isSome_iff_exists.mp ha
      obtain ⟨bo, hbo⟩ := Option.isSome_iff_exists.mp hb
      simp only [shorten_step, hao, hbo]
      by_cases hreq : needed_bytes (Int.ofNat bo - Int.ofNat ao) ≠ sz
      · rw [if_pos hreq]; rfl
      · rw [if_neg hreq]; rfl

theorem mem_sref_ids_of_mem_step :
    ∀ (s : List SolidAsm) (a : SolidAsm), a ∈ s →
      ∀ m ∈ step_sref_ids a, m ∈ sref_ids s := by
  intro s
  induction s with
  | nil => intro a ha; cases ha
  | cons b rest ih =>
    intro a ha m hm
    rcases List.mem_cons.mp ha with h | h
    · subst h
      simp only [sref_ids, List.mem_append]
      exact Or.inl hm
    · simp only [sref_ids, List.mem_append]
      exact Or.inr (ih a h m hm)

theorem shorten_asm_once_total (s : List SolidAsm)
    (hsub : ∀ m ∈ sref_ids s, m ∈ solid_mark_ids s) :
    ∃ c s', shorten_asm_once s = some (c, s') := by
  have hall : ∀ a ∈ s, (shorten_step (get_solid_offsets s) a).isSome := by
    intro a ha
    apply shorten_step_total
    intro m hm
    rw [get_solid_offsets_keys]
    exact hsub m (mem_sref_ids_of_mem_step s a ha m hm)
  obtain ⟨l, hl⟩ := mapM_option_isSome _ s hall
  refine ⟨l.any Prod.fst, l.map Prod.snd, ?_⟩
  simp only [shorten_asm_once, hl, Option.map_some']

theorem mem_asm_ref_ids :
    ∀ (asm : List Asm) (m : MarkId), m ∈ asm_ref_ids asm →
      ∃ step ∈ asm, m ∈ step_ref_ids step := by
  intro asm
  induction asm with
  | nil => intro m hm; cases hm
  | cons a rest ih =>
    intro m hm
    simp only [asm_ref_ids, List.mem_append] at hm
    rcases hm with hm | hm
    · exact ⟨a, by simp, hm⟩
    · obtain ⟨step, h1, h2⟩ := ih m hm
      exact ⟨step, by simp [h1], h2⟩

theorem spec_ok_ref_ids (asm : List Asm) (hspec : valid_spec asm) :
    ∀ m ∈ asm_ref_ids asm, m ∈ mark_ids asm := by
  intro m hm
  obtain ⟨step, hstep, hms⟩ := mem_asm_ref_ids asm m hm
  have hok := hspec.2 step hstep
  cases step with
  | markRef m2 =>
    simp only [step_ref_ids, List.mem_singleton] at hms
    subst hms
    simp only [spec_step_ok, mark_pos] at hok
    rw [← marks_with_index_keys]
    exact (alist_lookup_isSome_mem _ _).mp hok
  | markDeltaRef a b =>
    simp only [step_ref_ids] at hms
    simp only [spec_step_ok, mark_pos] at hok
    cases ha : alist_lookup (marks_with_index asm) a with
    | none => rw [ha] at hok; simp at hok
    | some si =>
      cases hb : alist_lookup (marks_with_index asm) b with
      | none => rw [ha, hb] at hok; simp at hok
      | some ei =>
        rw [← marks_with_index_keys]
        have hma : m = a ∨ m = b := by simpa using hms
        rcases hma with rfl | rfl
        · exact (alist_lookup_isSome_mem _ _).mp (by simp [ha])
        · exact (alist_lookup_isSome_mem _ _).mp (by simp [hb])
  | op o => cases hms
  | mark m2 => cases hms
  | raw bs => cases hms

theorem solidify_proj (w : Nat) : ∀ (asm : List Asm),
    sref_ids (asm.map fun step =>
      match step with
      | Asm.markRef m => SolidAsm.sizedRef (SizedRef.mk (ARef.markRef m) w)
      | Asm.markDeltaRef s e =>
        SolidAsm.sizedRef (SizedRef.mk (ARef.markDeltaRef s e) w)
      | Asm.op o => SolidAsm.op o
      | Asm.mark m => SolidAsm.mark m
      | Asm.raw bs => SolidAsm.raw bs) = asm_ref_ids asm ∧
    solid_mark_ids (asm.map fun step =>
      match step with
      | Asm.markRef m => SolidAsm.sizedRef (SizedRef.mk (ARef.markRef m) w)
      | Asm.markDeltaRef s e =>
        SolidAsm.sizedRef (SizedRef.mk (ARef.markDeltaRef s e) w)
      | Asm.op o => SolidAsm.op o
      | Asm.mark m => SolidAsm.mark m
      | Asm.raw bs => SolidAsm.raw bs) = mark_ids asm := by
  intro asm
  induction asm with
  | nil => exact ⟨rfl, rfl⟩
  | cons a rest ih =>
    obtain ⟨ih1, ih2⟩ := ih
    constructor
    · cases a <;> simp [sref_ids, step_sref_ids, asm_ref_ids, step_ref_ids, ih1]
    · rw [List.map_cons, solid_mark_ids_cons_split, mark_ids_cons_split, ih2]
      cases a <;> rfl

theorem asm_to_solid_proj (asm : List Asm) (solid : List SolidAsm)
    (h : asm_to_solid asm = some solid) :
    sref_ids solid = asm_ref_ids asm ∧ solid_mark_ids solid = mark_ids asm := by
  simp only [asm_to_solid] at h
  by_cases h6 : get_min_static_size_bytes asm ≤ 6
  · rw [if_pos h6] at h
    cases h
    exact solidify_proj (get_min_static_size_bytes asm) asm
  · rw [if_neg h6] at h
    cases h

/-- Claim C10: for every symbolic stream that passes validation, in the
solidified stream and in every stream obtained from it by shrink passes,
every pass succeeds and every label identity named by a sized reference
is a key of the offset map, so the offset-map lookups performed by
`shorten_asm_once` and `solid_asm_to_bytecode` always succeed. -/
theorem claim_C10_offset_lookups_total (asm : List Asm) (solid : List SolidAsm)
    (hv : validate_asm asm = Except.ok ()) (hs : asm_to_solid asm = some solid) :
    ∀ n, ∃ t, iterate_shorten n solid = some t ∧
      (∀ m ∈ sref_ids t, (alist_lookup (get_solid_offsets t) m).isSome) ∧
      ∃ c t', shorten_asm_once t = some (c, t') := by
  have hspec := (validate_asm_characterization asm).1.mp hv
  have hsub0 : ∀ m ∈ sref_ids solid, m ∈ solid_mark_ids solid := by
    obtain ⟨hsr, hmk⟩ := asm_to_solid_proj asm solid hs
    rw [hsr, hmk]
    exact spec_ok_ref_ids asm hspec
  suffices hgen : ∀ (n : Nat) (s : List SolidAsm),
      (∀ m ∈ sref_ids s, m ∈ solid_mark_ids s) →
      ∃ t, iterate_shorten n s = some t ∧
        ∀ m ∈ sref_ids t, m ∈ solid_mark_ids t by
    intro n
    obtain ⟨t, h1, h2⟩ := hgen n solid hsub0
    exact ⟨t, h1, fun m hm => (get_solid_offsets_keys t m).mpr (h2 m hm),
      shorten_asm_once_total t h2⟩
  intro n
  induction n with
  | zero => intro s hsub; exact ⟨s, rfl, hsub⟩
  | succ n ih =>
    intro s hsub
    obtain ⟨c, s', hso⟩ := shorten_asm_once_total s hsub
    obtain ⟨hsr, hmk⟩ := shorten_asm_once_proj s c s' hso
    obtain ⟨t, h1, h2⟩ := ih s' (by rw [hsr, hmk]; exact hsub)
    refine ⟨t, ?_, h2⟩
    simp only [iterate_shorten, hso]
    exact h1

/-- Witness for C10 on a validated two-step stream, iterated twice. -/
theorem claim_C10_offset_lookups_total_witness :
    ∃ t, iterate_shorten 2 [SolidAsm.mark ([], 0),
        SolidAsm.sizedRef (SizedRef.mk (ARef.markRef ([], 0)) 1)] = some t ∧
      (∀ m ∈ sref_ids t, (alist_lookup (get_solid_offsets t) m).isSome) ∧
      ∃ c t', shorten_asm_once t = some (c, t') :=
  claim_C10_offset_lookups_total [Asm.mark ([], 0), Asm.markRef ([], 0)]
    [SolidAsm.mark ([], 0), SolidAsm.sizedRef (SizedRef.mk (ARef.markRef ([], 0)) 1)]
    (by rfl) (by rfl) 2

/-! ### Mark offsets as prefix sums and claim C8 -/

theorem size_upto_zero (s : List SolidAsm) : size_upto s 0 = 0 := rfl

theorem size_upto_cons (x : SolidAsm) (l : List SolidAsm) (j : Nat) :
    size_upto (x :: l) (j + 1) = get_size x + size_upto l j := by
  simp [size_upto, List.take_succ_cons]

theorem size_upto_mono (s : List SolidAsm) :
    ∀ (j1 j2 : Nat), j1 ≤ j2 → size_upto s j1 ≤ size_upto s j2 := by
  induction s with
  | nil => intro j1 j2 _; simp [size_upto]
  | cons x l ih =>
    intro j1 j2 h
    cases j1 with
    | zero => simp [size_upto_zero]
    | succ j1 =>
      cases j2 with
      | zero => omega
      | succ j2 =>
        rw [size_upto_cons, size_upto_cons]
        have := ih j1 j2 (by omega)
        omega

theorem alist_lookup_mem {K V : Type} [DecidableEq K] :
    ∀ (d : List (K × V)) (k : K) (v : V), alist_lookup d k = some v → (k, v) ∈ d := by
  intro d
  induction d with
  | nil => intro k v h; cases h
  | cons p rest ih =>
    intro k v h
    obtain ⟨k', v'⟩ := p
    simp only [alist_lookup] at h
    by_cases hk : k = k'
    · rw [if_pos hk] at h
      cases h
      subst hk
      simp
    · rw [if_neg hk] at h
      simp [ih k v h]

theorem mark_pos_get (asm : List Asm) (m : MarkId) (i : Nat)
    (h : mark_pos asm m = some i) : asm[i]? = some (Asm.mark m) := by
  have hmem := alist_lookup_mem _ _ _ h
  simp only [marks_with_index, List.mem_filterMap] at hmem
  obtain ⟨p, hp, hf⟩ := hmem
  obtain ⟨hle, hget⟩ := enum_from_mem asm 0 p hp
  rw [Nat.sub_zero] at hget
  cases hstep : p.2 with
  | mark m2 =>
    rw [hstep] at hf
    simp only [Option.some.injEq, Prod.mk.injEq] at hf
    obtain ⟨hm2, hi⟩ := hf
    subst hm2
    rw [hi] at hget
    rw [hstep] at hget
    exact hget
  | op o => rw [hstep] at hf; cases hf
  | markRef m2 => rw [hstep] at hf; cases hf
  | markDeltaRef a b => rw [hstep] at hf; cases hf
  | raw bs => rw [hstep] at hf; cases hf

theorem strip_sizes_getElem_mark (solid : List SolidAsm) (i : Nat) (m : MarkId)
    (h : (strip_sizes solid)[i]? = some (Asm.mark m)) :
    solid[i]? = some (SolidAsm.mark m) := by
  simp only [strip_sizes, List.getElem?_map] at h
  cases hs : solid[i]? with
  | none => rw [hs] at h; cases h
  | some step =>
    rw [hs] at h
    cases step with
    | mark m2 =>
      simp only [Option.map_some', Option.some.injEq] at h
      cases h
      rfl
    | op o => simp at h
    | raw bs => simp at h
    | sizedRef sr =>
      cases hr : sr.ref with
      | markRef m2 => simp [hr] at h
      | markDeltaRef a b => simp [hr] at h

theorem strip_sizes_mark_ids (solid : List SolidAsm) :
    mark_ids (strip_sizes solid) = solid_mark_ids solid := by
  induction solid with
  | nil => rfl
  | cons a rest ih =>
    simp only [strip_sizes, List.map_cons] at ih ⊢
    rw [mark_ids_cons_split, solid_mark_ids_cons_split, ih]
    cases a with
    | op o => rfl
    | mark m => rfl
    | raw bs => rfl
    | sizedRef sr => cases hr : sr.ref <;> simp [mark_ids, solid_mark_ids, hr]

theorem get_solid_offsets_aux_preserve :
    ∀ (s : List SolidAsm) (off : Nat) (d : List (MarkId × Nat)) (m : MarkId),
      m ∉ solid_mark_ids s →
      alist_lookup (get_solid_offsets_aux s off d) m = alist_lookup d m := by
  intro s
  induction s with
  | nil => intro off d m _; rfl
  | cons step rest ih =>
    intro off d m hm
    rw [solid_mark_ids_cons_split] at hm
    simp only [List.mem_append] at hm
    push_neg at hm
    obtain ⟨hm1, hm2⟩ := hm
    cases step with
    | mark m2 =>
      have hne : m ≠ m2 := by
        intro he
        subst he
        exact hm1 (by simp [solid_mark_ids])
      simp only [get_solid_offsets_aux]
      rw [ih _ _ m hm2, dict_insert_lookup, if_neg hne]
    | op o => simp only [get_solid_offsets_aux]; exact ih _ _ m hm2
    | raw bs => simp only [get_solid_offsets_aux]; exact ih _ _ m hm2
    | sizedRef sr => simp only [get_solid_offsets_aux]; exact ih _ _ m hm2

theorem mem_solid_mark_ids_of_getElem (s : List SolidAsm) (j : Nat) (m : MarkId)
    (h : s[j]? = some (SolidAsm.mark m)) : m ∈ solid_mark_ids s := by
  have hmem : SolidAsm.mark m ∈ s := by
    have := List.getElem?_eq_some_iff.mp h
    obtain ⟨hj, hg⟩ := this
    exact hg ▸ List.getElem_mem hj
  simp only [solid_mark_ids, List.mem_filterMap]
  exact ⟨SolidAsm.mark m, hmem, rfl⟩

theorem get_solid_offsets_aux_value :
    ∀ (s : List SolidAsm) (off : Nat) (d : List (MarkId × Nat)) (j : Nat) (m : MarkId),
      s[j]? = some (SolidAsm.mark m) →
      (solid_mark_ids s).Nodup →
      alist_lookup (get_solid_offsets_aux s off d) m = some (off + size_upto s j) := by
  intro s
  induction s with
  | nil => intro off d j m h _; simp at h
  | cons step rest ih =>
    intro off d j m hj hnd
    cases j with
    | zero =>
      simp only [List.getElem?_cons_zero, Option.some.injEq] at hj
      subst hj
      simp only [get_solid_offsets_aux]
      have hnotin : m ∉ solid_mark_ids rest := by
        rw [solid_mark_ids_cons_split] at hnd
        have hdisj := (List.nodup_append.mp hnd).2.2
        intro hmem
        exact hdisj (by simp [solid_mark_ids]) hmem
      rw [get_solid_offsets_aux_preserve rest _ _ m hnotin,
        dict_insert_lookup, if_pos rfl, size_upto_zero, Nat.add_zero]
    | succ j =>
      simp only [List.getElem?_cons_succ] at hj
      have hndrest : (solid_mark_ids rest).Nodup := by
        rw [solid_mark_ids_cons_split] at hnd
        exact (List.nodup_append.mp hnd).2.1
      cases step with
      | mark m2 =>
        simp only [get_solid_offsets_aux]
        rw [ih _ _ j m hj hndrest, size_upto_cons, Nat.add_assoc]
      | op o =>
        simp only [get_solid_offsets_aux]
        rw [ih _ _ j m hj hndrest, size_upto_cons, Nat.add_assoc]
      | raw bs =>
        simp only [get_solid_offsets_aux]
        rw [ih _ _ j m hj hndrest, size_upto_cons, Nat.add_assoc]
      | sizedRef sr =>
        simp only [get_solid_offsets_aux]
        rw [ih _ _ j m hj hndrest, size_upto_cons, Nat.add_assoc]

theorem get_solid_offsets_value (s : List SolidAsm) (j : Nat) (m : MarkId)
    (hj : s[j]? = some (SolidAsm.mark m)) (hnd : (solid_mark_ids s).Nodup) :
    alist_lookup (get_solid_offsets s) m = some (size_upto s j) := by
  have h := get_solid_offsets_aux_value s 0 [] j m hj hnd
  simpa [get_solid_offsets] using h

/-- Claim C8 (amended): for every width assignment to a stream accepted
by validation, each distance reference's resolved distance is
non-negative — the end label's offset is at least the start label's;
a distance of exactly zero is reachable (see the counterexample), so
only non-negativity, not non-zeroness, is invariant. -/
theorem claim_C8_delta_nonneg (solid : List SolidAsm)
    (hv : validate_asm (strip_sizes solid) = Except.ok ()) :
    ∀ a b sz, SolidAsm.sizedRef (SizedRef.mk (ARef.markDeltaRef a b) sz) ∈ solid →
      ∃ so eo, alist_lookup (get_solid_offsets solid) a = some so ∧
        alist_lookup (get_solid_offsets solid) b = some eo ∧ so ≤ eo := by
  intro a b sz hmem
  have hspec := (validate_asm_characterization _).1.mp hv
  have hnd : (solid_mark_ids solid).Nodup := by
    rw [← strip_sizes_mark_ids]
    exact hspec.1
  have hmem' : Asm.markDeltaRef a b ∈ strip_sizes solid := by
    simp only [strip_sizes, List.mem_map]
    exact ⟨_, hmem, rfl⟩
  have hok := hspec.2 _ hmem'
  simp only [spec_step_ok] at hok
  cases hpa : mark_pos (strip_sizes solid) a with
  | none => rw [hpa] at hok; simp at hok
  | some ia =>
    cases hpb : mark_pos (strip_sizes solid) b with
    | none => rw [hpa, hpb] at hok; simp at hok
    | some ib =>
      rw [hpa, hpb] at hok
      have hlt : ia < ib := by simpa using hok
      have hga := strip_sizes_getElem_mark solid ia a (mark_pos_get _ a ia hpa)
      have hgb := strip_sizes_getElem_mark solid ib b (mark_pos_get _ b ib hpb)
      refine ⟨size_upto solid ia, size_upto solid ib,
        get_solid_offsets_value solid ia a hga hnd,
        get_solid_offsets_value solid ib b hgb hnd,
        size_upto_mono solid ia ib (by omega)⟩

/-- Witness for C8 on a validated stream with one positive-size step
between the two labels. -/
theorem claim_C8_delta_nonneg_witness :
    ∃ so eo,
      alist_lookup (get_solid_offsets [SolidAsm.mark ([], 0),
        SolidAsm.op (Op.mk 128 []), SolidAsm.mark ([], 1),
        SolidAsm.sizedRef (SizedRef.mk (ARef.markDeltaRef ([], 0) ([], 1)) 1)])
        ([], 0) = some so ∧
      alist_lookup (get_solid_offsets [SolidAsm.mark ([], 0),
        SolidAsm.op (Op.mk 128 []), SolidAsm.mark ([], 1),
        SolidAsm.sizedRef (SizedRef.mk (ARef.markDeltaRef ([], 0) ([], 1)) 1)])
        ([], 1) = some eo ∧ so ≤ eo :=
  claim_C8_delta_nonneg
    [SolidAsm.mark ([], 0), SolidAsm.op (Op.mk 128 []), SolidAsm.mark ([], 1),
      SolidAsm.sizedRef (SizedRef.mk (ARef.markDeltaRef ([], 0) ([], 1)) 1)]
    (by rfl) ([], 0) ([], 1) 1 (by decide)

/-- Counterexample for C8: a stream whose two labels are adjacent passes
validation, yet its distance reference resolves to exactly zero
(offset(end) - offset(start) = 0), contradicting the claimed non-zero
distance. -/
theorem claim_C8_counterexample :
    validate_asm [Asm.mark ([], 0), Asm.mark ([], 1),
        Asm.markDeltaRef ([], 0) ([], 1)] = Except.ok () ∧
      strip_sizes [SolidAsm.mark ([], 0), SolidAsm.mark ([], 1),
        SolidAsm.sizedRef (SizedRef.mk (ARef.markDeltaRef ([], 0) ([], 1)) 1)] =
        [Asm.mark ([], 0), Asm.mark ([], 1), Asm.markDeltaRef ([], 0) ([], 1)] ∧
      alist_lookup (get_solid_offsets [SolidAsm.mark ([], 0), SolidAsm.mark ([], 1),
        SolidAsm.sizedRef (SizedRef.mk (ARef.markDeltaRef ([], 0) ([], 1)) 1)])
        ([], 0) = some 0 ∧
      alist_lookup (get_solid_offsets [SolidAsm.mark ([], 0), SolidAsm.mark ([], 1),
        SolidAsm.sizedRef (SizedRef.mk (ARef.markDeltaRef ([], 0) ([], 1)) 1)])
        ([], 1) = some 0 :=
  ⟨rfl, rfl, rfl, rfl⟩

/-! ### The deploy stream through the pipeline (C7) -/

theorem needed_bytes_le255 (x : Nat) (hx : x ≤ 255) :
    needed_bytes (Int.ofNat x) = 1 := by
  have h1 := needed_bytes_pos (Int.ofNat x)
  have h2 := (needed_bytes_le_iff x 1 (Nat.le_refl 1)).mpr (by omega)
  omega

theorem validate_deploy (runtime : List Nat) :
    validate_asm (deploy_asm runtime) = Except.ok () := rfl

theorem deploy_min_static_sum (runtime : List Nat) :
    ((deploy_asm runtime).map min_static_size).sum = 7 + runtime.length := by
  simp [deploy_asm, min_static_size, create_plain_op]
  omega

theorem deploy_ref_count (runtime : List Nat) :
    ref_count (deploy_asm runtime) = 2 := rfl

theorem deploy_solidify (runtime : List Nat)
    (h6 : get_min_static_size_bytes (deploy_asm runtime) ≤ 6) :
    asm_to_solid (deploy_asm runtime) =
      some (solid_deploy (get_min_static_size_bytes (deploy_asm runtime))
        (get_min_static_size_bytes (deploy_asm runtime)) runtime) := by
  simp only [asm_to_solid]
  rw [if_pos h6]
  rfl

theorem solid_deploy_offsets (wa wb : Nat) (runtime : List Nat) :
    get_solid_offsets (solid_deploy wa wb runtime) =
      [(([], START_SUB_ID), 7 + wa + wb),
        (([], END_SUB_ID), 7 + wa + wb + runtime.length)] := by
  simp only [get_solid_offsets, solid_deploy, get_solid_offsets_aux, get_size,
    dict_insert, create_plain_op, plain_opcode, START_SUB_ID, END_SUB_ID]
  norm_num
  all_goals omega

theorem decode_be_append_one (xs : List Nat) (b : Nat) :
    decode_be (xs ++ [b]) = decode_be xs * 256 + b := by
  simp [decode_be, List.foldl_append]

theorem decode_be_be_bytes : ∀ (n v : Nat), v < 2 ^ (8 * n) →
    decode_be (be_bytes v n) = v := by
  intro n
  induction n with
  | zero =>
    intro v hv
    simp only [Nat.mul_zero, pow_zero, Nat.lt_one_iff] at hv
    subst hv
    rfl
  | succ n ih =>
    intro v hv
    have hsplit : (2 : Nat) ^ (8 * (n + 1)) = 2 ^ (8 * n) * 256 := by
      rw [show 8 * (n + 1) = 8 * n + 8 from by ring, pow_add]
      norm_num
    have hdiv : v / 256 < 2 ^ (8 * n) := by
      rw [Nat.div_lt_iff_lt_mul (by norm_num)]
      rw [hsplit] at hv
      exact hv
    rw [be_bytes, decode_be_append_one, ih (v / 256) hdiv]
    omega

theorem to_bytes_be_ofNat (v : Nat) (n : Nat) (hv : v < 2 ^ (8 * n)) :
    to_bytes_be (Int.ofNat v) n = some (be_bytes v n) := by
  have hlt : (Int.ofNat v) < 2 ^ (8 * n) := by
    have h2 : Int.ofNat (2 ^ (8 * n)) = ((2 : Int) ^ (8 * n)) := by
      simp [Int.ofNat_eq_natCast]
    rw [← h2]
    exact Int.ofNat_lt.mpr hv
  simp only [to_bytes_be]
  rw [if_pos ⟨Int.ofNat_nonneg v, hlt⟩]
  simp

theorem be_bytes_one (v : Nat) (hv : v < 256) : be_bytes v 1 = [v] := by
  simp only [be_bytes, List.nil_append]
  congr 1
  omega

theorem shorten_solid_deploy (wa wb : Nat) (runtime : List Nat)
    (hwa : wa ≤ 6) (hwb : wb ≤ 6) :
    shorten_asm_once (solid_deploy wa wb runtime) =
      some ((decide (needed_bytes (Int.ofNat runtime.length) ≠ wa) ||
          decide ((1 : Nat) ≠ wb)),
        solid_deploy (needed_bytes (Int.ofNat runtime.length)) 1 runtime) := by
  have hoff := solid_deploy_offsets wa wb runtime
  have hdelta : (Int.ofNat (7 + wa + wb + runtime.length) -
      Int.ofNat (7 + wa + wb)) = Int.ofNat runtime.length := by
    simp only [Int.ofNat_eq_natCast]
    push_cast
    ring
  have href : needed_bytes (Int.ofNat (7 + wa + wb)) = 1 :=
    needed_bytes_le255 _ (by omega)
  simp only [shorten_asm_once]
  rw [hoff]
  simp only [solid_deploy, START_SUB_ID, END_SUB_ID, List.mapM_cons, List.mapM_nil,
    shorten_step, alist_lookup, set_size, create_plain_op, plain_opcode]
  simp only [if_true]
  simp only [hdelta, href]
  by_cases hda : needed_bytes ((runtime.length : Int)) = wa <;>
    by_cases hrb : (1 : Nat) = wb
  · simp [hda, ← hrb]
  · simp [hda, hrb]
  · simp [hda, ← hrb]
  · simp [hda, hrb]

theorem shorten_loop_stop_pass (asm asm' : List SolidAsm) (m : Int) (fuel : Nat)
    (hm : ¬ m = 0) (h : shorten_asm_once asm = some (false, asm')) :
    shorten_loop asm m (fuel + 1) = ShortenRes.out asm' := by
  simp only [shorten_loop, h]
  rw [if_neg hm, if_neg (by decide)]

theorem shorten_loop_go_pass (asm asm' : List SolidAsm) (m : Int) (fuel : Nat)
    (hm : ¬ m = 0) (h : shorten_asm_once asm = some (true, asm')) :
    shorten_loop asm m (fuel + 1) = shorten_loop asm' (m - 1) fuel := by
  simp only [shorten_loop, h]
  rw [if_neg hm]
  simp

theorem shorten_loop_deploy (w0 : Nat) (runtime : List Nat) (hw : w0 ≤ 6)
    (hnb : needed_bytes (Int.ofNat runtime.length) ≤ 6) :
    shorten_loop (solid_deploy w0 w0 runtime) (-1) 4 =
      ShortenRes.out
        (solid_deploy (needed_bytes (Int.ofNat runtime.length)) 1 runtime) := by
  have h1 := shorten_solid_deploy w0 w0 runtime hw hw
  cases hb : (decide (needed_bytes (Int.ofNat runtime.length) ≠ w0) ||
      decide ((1 : Nat) ≠ w0)) with
  | false =>
    rw [hb] at h1
    rw [show (4 : Nat) = 3 + 1 from rfl]
    exact shorten_loop_stop_pass _ _ (-1) 3 (by decide) h1
  | true =>
    rw [hb] at h1
    rw [show (4 : Nat) = 3 + 1 from rfl,
      shorten_loop_go_pass _ _ (-1) 3 (by decide) h1]
    have h2 := shorten_solid_deploy (needed_bytes (Int.ofNat runtime.length)) 1
      runtime hnb (by norm_num)
    have hflag : (decide (needed_bytes (Int.ofNat runtime.length) ≠
        needed_bytes (Int.ofNat runtime.length)) ||
        decide ((1 : Nat) ≠ 1)) = false := by simp
    rw [hflag] at h2
    rw [show (3 : Nat) = 2 + 1 from rfl]
    exact shorten_loop_stop_pass _ _ (-1 - 1) 2 (by decide) h2

theorem emit_solid_deploy (runtime : List Nat)
    (hnb : needed_bytes (Int.ofNat runtime.length) ≤ 6) :
    solid_asm_to_bytecode
        (solid_deploy (needed_bytes (Int.ofNat runtime.length)) 1 runtime) =
      some ((0x5f + needed_bytes (Int.ofNat runtime.length)) ::
        (be_bytes runtime.length (needed_bytes (Int.ofNat runtime.length)) ++
          ([0x80, 0x60, 8 + needed_bytes (Int.ofNat runtime.length),
            0x5f, 0x39, 0x5f, 0xf3] ++ runtime))) := by
  have hoff := solid_deploy_offsets (needed_bytes (Int.ofNat runtime.length)) 1 runtime
  have hdelta : (Int.ofNat (7 + needed_bytes (Int.ofNat runtime.length) + 1 + runtime.length) -
      Int.ofNat (7 + needed_bytes (Int.ofNat runtime.length) + 1)) =
        Int.ofNat runtime.length := by
    simp only [Int.ofNat_eq_natCast]
    push_cast
    ring
  have htb1 : to_bytes_be (Int.ofNat runtime.length)
      (needed_bytes (Int.ofNat runtime.length)) =
      some (be_bytes runtime.length (needed_bytes (Int.ofNat runtime.length))) :=
    to_bytes_be_ofNat _ _ (lt_two_pow_needed_bytes runtime.length)
  have htb2 : to_bytes_be
      (Int.ofNat (7 + needed_bytes (Int.ofNat runtime.length) + 1)) 1 =
      some [8 + needed_bytes (Int.ofNat runtime.length)] := by
    have h256 : (2 : Nat) ^ (8 * 1) = 256 := by norm_num
    rw [to_bytes_be_ofNat _ 1 (by rw [h256]; omega)]
    rw [be_bytes_one _ (by omega)]
    have harith : 7 + needed_bytes (Int.ofNat runtime.length) + 1 =
        8 + needed_bytes (Int.ofNat runtime.length) := by omega
    rw [harith]
  simp only [solid_asm_to_bytecode]
  rw [hoff]
  simp only [solid_deploy, START_SUB_ID, END_SUB_ID, List.mapM_cons, List.mapM_nil,
    emit_step, alist_lookup, create_plain_op, plain_opcode, Op.get_bytes]
  simp only [if_true]
  simp only [hdelta, htb1, htb2]
  simp [create_push, be_bytes_length, Op.get_bytes]
  rw [show to_bytes_be ((runtime.length : Int)) (needed_bytes ((runtime.length : Int))) =
    some (be_bytes runtime.length (needed_bytes ((runtime.length : Int)))) from htb1]
  simp [be_bytes_length]

/-- Claim C7 (amended): minimal_deploy wraps a runtime payload in an 11-step deploy
stream; whenever the payload length is at most 2^48 - 20 the pipeline succeeds and
returns a bytecode whose leading push immediate decodes to the runtime length and
which ends with the runtime itself as a suffix. For payloads of length at least
2^48 the solidifier refuses (its reference width would exceed the six-byte
ceiling), so the pipeline fails rather than producing deploy code. -/
theorem claim_C7_minimal_deploy (runtime : List Nat)
    (hK : runtime.length ≤ 2 ^ 48 - 20) :
    minimal_deploy runtime 4 =
      PipeRes.ok ((0x5f + needed_bytes (Int.ofNat runtime.length)) ::
        (be_bytes runtime.length (needed_bytes (Int.ofNat runtime.length)) ++
          ([0x80, 0x60, 8 + needed_bytes (Int.ofNat runtime.length),
            0x5f, 0x39, 0x5f, 0xf3] ++ runtime))) ∧
    decode_be (be_bytes runtime.length (needed_bytes (Int.ofNat runtime.length))) =
      runtime.length ∧
    List.IsSuffix runtime ((0x5f + needed_bytes (Int.ofNat runtime.length)) ::
      (be_bytes runtime.length (needed_bytes (Int.ofNat runtime.length)) ++
        ([0x80, 0x60, 8 + needed_bytes (Int.ofNat runtime.length),
          0x5f, 0x39, 0x5f, 0xf3] ++ runtime))) := by
  obtain ⟨hpos, hstop, hleast⟩ := get_min_static_size_bytes_spec (deploy_asm runtime)
  rw [deploy_min_static_sum, deploy_ref_count] at hstop hleast
  have hpow48 : (2 : Nat) ^ 48 = 281474976710656 := by norm_num
  have h6 : get_min_static_size_bytes (deploy_asm runtime) ≤ 6 := by
    apply hleast 6 (by norm_num)
    rw [min_size_stop_true_iff]
    have hp : (2 : Nat) ^ (8 * 6) = 281474976710656 := by norm_num
    omega
  have hstop2 := (min_size_stop_true_iff _ _ _).mp hstop
  have hKlt : runtime.length <
      2 ^ (8 * get_min_static_size_bytes (deploy_asm runtime)) := by
    omega
  have hnb6 : needed_bytes (Int.ofNat runtime.length) ≤ 6 :=
    le_trans ((needed_bytes_le_iff _ _ hpos).mpr hKlt) h6
  have hval := validate_deploy runtime
  have hsolid := deploy_solidify runtime h6
  have hloop := shorten_loop_deploy (get_min_static_size_bytes (deploy_asm runtime))
    runtime h6 hnb6
  have hemit := emit_solid_deploy runtime hnb6
  refine ⟨?_, decode_be_be_bytes _ _ (lt_two_pow_needed_bytes runtime.length), ?_⟩
  · show asm_to_bytecode (deploy_asm runtime) asm_to_bytecode_default_max_reduce_iters 4 = _
    simp only [asm_to_bytecode, asm_to_bytecode_default_max_reduce_iters, hval, hsolid,
      shorten_asm, hloop, hemit]
  · exact ⟨(0x5f + needed_bytes (Int.ofNat runtime.length)) ::
      (be_bytes runtime.length (needed_bytes (Int.ofNat runtime.length)) ++
        [0x80, 0x60, 8 + needed_bytes (Int.ofNat runtime.length),
          0x5f, 0x39, 0x5f, 0xf3]),
      by simp⟩

theorem claim_C7_minimal_deploy_witness :
    minimal_deploy [7, 7] 4 = PipeRes.ok [96, 2, 128, 96, 9, 95, 57, 95, 243, 7, 7] := by
  have h := (claim_C7_minimal_deploy [7, 7] (by norm_num)).1
  rw [h]
  rfl

theorem minimal_deploy_err_of_big (runtime : List Nat)
    (hbig : 2 ^ 48 ≤ runtime.length) :
    minimal_deploy runtime 1 = PipeRes.err := by
  have hval := validate_deploy runtime
  obtain ⟨hpos, hstop, hleast⟩ := get_min_static_size_bytes_spec (deploy_asm runtime)
  rw [deploy_min_static_sum, deploy_ref_count] at hstop
  have hstop2 := (min_size_stop_true_iff _ _ _).mp hstop
  have h2_48 : (2 : Nat) ^ 48 = 281474976710656 := by norm_num
  have hgt : ¬ get_min_static_size_bytes (deploy_asm runtime) ≤ 6 := by
    intro h6
    have hle : (2 : Nat) ^ (8 * get_min_static_size_bytes (deploy_asm runtime)) ≤ 2 ^ 48 :=
      Nat.pow_le_pow_right (by norm_num) (by omega)
    omega
  have hnone : asm_to_solid (deploy_asm runtime) = none := by
    simp only [asm_to_solid]
    rw [if_neg hgt]
  show asm_to_bytecode (deploy_asm runtime)
    asm_to_bytecode_default_max_reduce_iters 1 = PipeRes.err
  simp only [asm_to_bytecode, hval, hnone]

theorem claim_C7_counterexample :
    minimal_deploy (List.replicate (2 ^ 48) 0) 1 = PipeRes.err :=
  minimal_deploy_err_of_big (List.replicate (2 ^ 48) 0)
    (le_of_eq (List.length_replicate (2 ^ 48) 0).symm)
